import Mathlib

/-!
# The LRU cache of `geecache/lru` (day1-lru/geecache/lru/lru.go)

A shallow embedding of `lru.go` and a verification of its behaviour.

Modelling choices.

* `container/list`: a doubly linked list is the sequence of its element
  pointers, front first.  An element pointer is a natural number; the store
  `elems` gives the `*entry` each element holds.  `PushFront` allocates the
  next unused pointer.
* `map[string]*list.Element`: a finite map (`AList`) from keys to element
  pointers.
* `int64` / `int`: an `Int`, `int` being 64 bits wide, and the additions and
  subtractions that `lru.go` makes on `usedBytes` (lines 53, 65 and 70) wrap
  around at 64 bits as they do in Go (`add64`, `sub64`).  Totals that the
  theorems compare with `usedBytes` (`cost`, `liveBytes`) are exact.
  `len(key)` is the UTF-8 byte size of the key.
* `OnEvicted`: the callback is host code; the cache records whether it is
  non-nil and the sequence of calls made to it (`calls`).
* The `for` loop of `Add` is run with fuel: `none` means the loop was still
  running when the fuel ran out.
-/

namespace lru

/-- Two's complement wrap-around of an integer to the range of `int64`. -/
def wrap64 (x : Int) : Int :=
  (x + 9223372036854775808) % 18446744073709551616 - 9223372036854775808

/-- Addition of `int64` in Go. -/
def add64 (a b : Int) : Int := wrap64 (a + b)

/-- Subtraction of `int64` in Go. -/
def sub64 (a b : Int) : Int := wrap64 (a - b)

/-- The integer is an `int64`: no wrap-around is needed to hold it. -/
abbrev fits64 (x : Int) : Prop := -9223372036854775808 ≤ x ∧ x < 9223372036854775808

/-- Value interface of lru.go, whose only method is Len: a payload together
with the number its Len method reports (any `int`). -/
structure Value where
  payload : String
  size : Int
deriving DecidableEq, Repr

/-- Len method of the Value interface. -/
def Value.Len (v : Value) : Int := v.size

/-- String-backed value whose Len is the byte length of the string. -/
def S (s : String) : Value := ⟨s, s.utf8ByteSize⟩

/-- The `entry` struct of lru.go. -/
structure entry where
  key : String
  value : Value
deriving DecidableEq, Repr

/-- Pointer to a `list.Element`. -/
abbrev Element := Nat

/-- The `Cache` struct of lru.go.  `ll`, `elems` and `next` make up the linked
list `ll` of the source: the element pointers front to back, the entry each
allocated element holds, and the next pointer to allocate.  `OnEvicted` tells
whether the callback is non-nil and `calls` lists the calls made to it. -/
structure Cache where
  maxBytes : Int
  usedBytes : Int
  ll : List Element
  elems : Element → entry
  next : Element
  cache : AList (fun _ : String => Element)
  OnEvicted : Bool
  calls : List (String × Value)

/-- `list.MoveToFront`: no effect when the element is not in the list. -/
def MoveToFront (l : List Element) (e : Element) : List Element :=
  if e ∈ l then e :: l.erase e else l

/-- `list.Remove`: no effect when the element is not in the list. -/
def Remove (l : List Element) (e : Element) : List Element := l.erase e

/-- `list.Back`: the last element, or nil for an empty list. -/
def Back (l : List Element) : Option Element := l.getLast?

/-- `New` of lru.go (lines 27-34). -/
def New (maxBytes : Int) (onEvicted : Bool) : Cache :=
  { maxBytes := maxBytes
    usedBytes := 0
    ll := []
    elems := fun _ => ⟨"", ⟨"", 0⟩⟩
    next := 0
    cache := ∅
    OnEvicted := onEvicted
    calls := [] }

/-- `Cache.Get` of lru.go (lines 37-44): the returned value (none is the nil
interface), the `ok` flag, and the cache afterwards. -/
def Get (c : Cache) (key : String) : Option Value × Bool × Cache :=
  match c.cache.lookup key with
  | some node =>
    let c1 := { c with ll := MoveToFront c.ll node }
    let kv := c1.elems node
    (some kv.value, true, c1)
  | none => (none, false, c)

/-- `Cache.RemoveOldest` of lru.go (lines 47-58). -/
def RemoveOldest (c : Cache) : Cache :=
  match Back c.ll with
  | some node =>
    let kv := c.elems node
    { c with
      ll := Remove c.ll node
      cache := c.cache.erase kv.key
      usedBytes := sub64 c.usedBytes kv.value.Len
      calls := if c.OnEvicted then c.calls ++ [(kv.key, kv.value)] else c.calls }
  | none => c

/-- The body of `Cache.Add` before its loop (lru.go lines 62-71). -/
def addEntry (c : Cache) (key : String) (value : Value) : Cache :=
  match c.cache.lookup key with
  | some node =>
    let kv := c.elems node
    { c with
      ll := MoveToFront c.ll node
      usedBytes := add64 c.usedBytes (sub64 value.Len kv.value.Len)
      elems := Function.update c.elems node { kv with value := value } }
  | none =>
    let node := c.next
    { c with
      ll := node :: c.ll
      elems := Function.update c.elems node ⟨key, value⟩
      next := c.next + 1
      cache := c.cache.insert key node
      usedBytes := add64 c.usedBytes (add64 (key.utf8ByteSize : Int) value.Len) }

/-- The loop condition of `Cache.Add` (lru.go line 72). -/
def overBudget (c : Cache) : Bool :=
  decide (c.maxBytes ≠ 0) && decide (c.maxBytes < c.usedBytes)

/-- The loop of `Cache.Add` (lru.go lines 72-74), with at most `fuel`
iterations: none when the condition still holds after `fuel` of them. -/
def evictLoop : Nat → Cache → Option Cache
  | 0, c => if overBudget c then none else some c
  | fuel + 1, c => if overBudget c then evictLoop fuel (RemoveOldest c) else some c

/-- `Cache.Add` of lru.go (lines 61-75), its loop run with at most `fuel`
iterations. -/
def Add (fuel : Nat) (c : Cache) (key : String) (value : Value) : Option Cache :=
  evictLoop fuel (addEntry c key value)

/-- `Cache.Len` of lru.go (lines 78-80). -/
def Len (c : Cache) : Nat := c.ll.length

/-- Entries held by the recency list, front (most recent) to back. -/
def entries (c : Cache) : List entry := c.ll.map c.elems

/-- Byte cost of an entry: byte length of its key plus the Len of its value. -/
def cost (e : entry) : Int := (e.key.utf8ByteSize : Int) + e.value.Len

/-- Total byte cost of the live entries. -/
def liveBytes (c : Cache) : Int := ((entries c).map cost).sum

/-- Value the recency list holds for a key, if any. -/
def stored (c : Cache) (key : String) : Option Value :=
  ((entries c).find? (fun e => e.key == key)).map entry.value

/-- Caches obtained from `New maxBytes cb` by finitely many calls of Get,
RemoveOldest and Add that returned, the values passed to Add satisfying `P`. -/
inductive Reach (P : Value → Prop) (maxBytes : Int) (cb : Bool) : Cache → Prop
  | init : Reach P maxBytes cb (New maxBytes cb)
  | get {c : Cache} (key : String) :
      Reach P maxBytes cb c → Reach P maxBytes cb (Get c key).2.2
  | removeOldest {c : Cache} :
      Reach P maxBytes cb c → Reach P maxBytes cb (RemoveOldest c)
  | add {c c1 : Cache} (fuel : Nat) (key : String) (value : Value) :
      Reach P maxBytes cb c → P value → Add fuel c key value = some c1 →
      Reach P maxBytes cb c1

/-- Values whose Len is not negative. -/
def NonNeg (v : Value) : Prop := 0 ≤ v.Len

/-- A call on the cache. -/
inductive Op where
  | add (key : String) (value : Value)
  | get (key : String)
  | removeOldest

/-- Run one call; none when the loop of Add is out of fuel. -/
def call (fuel : Nat) (c : Cache) : Op → Option Cache
  | .add key value => Add fuel c key value
  | .get key => some (Get c key).2.2
  | .removeOldest => some (RemoveOldest c)

/-- Key touched by a call made on cache `c`: the key of an Add (insertion or
update), or the key of a Get that finds it. -/
def touched (c : Cache) : Op → Option String
  | .add key _ => some key
  | .get key => if (Get c key).2.1 then some key else none
  | .removeOldest => none

/-- A cache together with the number of calls made so far and, per key, the
number of the latest call that touched it. -/
structure Timed where
  cache : Cache
  clock : Nat
  lastTouch : String → Nat

/-- A fresh cache, before any call. -/
def Timed.start (maxBytes : Int) (cb : Bool) : Timed :=
  { cache := New maxBytes cb, clock := 0, lastTouch := fun _ => 0 }

/-- Run one call and stamp the key it touches with the number of the call. -/
def Timed.step (fuel : Nat) (s : Timed) (op : Op) : Option Timed :=
  match call fuel s.cache op with
  | none => none
  | some c1 =>
    some { cache := c1
           clock := s.clock + 1
           lastTouch :=
             match touched s.cache op with
             | some k => Function.update s.lastTouch k (s.clock + 1)
             | none => s.lastTouch }

/-- Run a sequence of calls, first to last. -/
def Timed.run (fuel : Nat) : Timed → List Op → Option Timed
  | s, [] => some s
  | s, op :: ops =>
    match Timed.step fuel s op with
    | none => none
    | some s1 => Timed.run fuel s1 ops

/-- Representation invariant tying the index to the recency list: the list
holds no element twice, every listed element was allocated, and the index maps
a key to an element exactly when that element is listed and holds the key. -/
structure Inv (c : Cache) : Prop where
  nodup : c.ll.Nodup
  fresh : ∀ p ∈ c.ll, p < c.next
  index : ∀ k p, c.cache.lookup k = some p ↔ (p ∈ c.ll ∧ (c.elems p).key = k)

/-- Every live value reports a non-negative Len. -/
def ValsNonNeg (c : Cache) : Prop := ∀ p ∈ c.ll, 0 ≤ (c.elems p).value.Len

/-- Front to back, the entries have strictly decreasing touch times, none later
than call `n`. -/
def Ordered (L : List entry) (t : String → Nat) (n : Nat) : Prop :=
  (L.map (fun e => t e.key)).Pairwise (· > ·) ∧ ∀ e ∈ L, t e.key ≤ n

/-- Scenario 2 after its first call: New(10), Add(key1, 1234). -/
def afterKey1 : Cache := addEntry (New 10 false) "key1" (S "1234")

/-- Scenario 2 after its second call, Add(k2, v2), which evicts once. -/
def afterK2 : Cache := RemoveOldest (addEntry afterKey1 "k2" (S "v2"))

/-- Scenario 1 before its Get: New(1024), Add(k1, v1), Add(k2, v2). -/
def twoKeys : Cache := addEntry (addEntry (New 1024 false) "k1" (S "v1")) "k2" (S "v2")

/-- A cache of budget 3 right after the insertion step of Add(key1, v). -/
def oversized : Cache := addEntry (New 3 false) "key1" (S "v")

/-- The calls of scenario 6. -/
def interleaved : List Op :=
  [.add "a" (S "1"), .add "b" (S "2"), .add "c" (S "3"), .get "a", .add "d" (S "4")]

/-- State after the calls of scenario 6 on a cache of budget 7: the last Add
evicts once. -/
def interleavedEnd : Timed :=
  { cache := RemoveOldest (addEntry (Get (addEntry (addEntry (addEntry (New 7 false)
      "a" (S "1")) "b" (S "2")) "c" (S "3")) "a").2.2 "d" (S "4"))
    clock := 5
    lastTouch := Function.update (Function.update (Function.update (Function.update
      (Function.update (fun _ => 0) "a" 1) "b" 2) "c" 3) "a" 4) "d" 5 }

/-- Total of the Len of the live values. -/
def valBytes (c : Cache) : Int := ((entries c).map (fun e => e.value.Len)).sum

/-- Calls the callback receives for a run of evicted entries, the run given
front to back: the back entry goes first. -/
def evictedCalls (ev : List entry) : List (String × Value) :=
  ev.reverse.map (fun e => (e.key, e.value))

/-- Run a sequence of calls, first to last; none when an Add is out of fuel. -/
def runOps (fuel : Nat) : Cache → List Op → Option Cache
  | c, [] => some c
  | c, op :: ops =>
    match call fuel c op with
    | none => none
    | some c1 => runOps fuel c1 ops

/-- The sequence holds Add and Get calls only. -/
def addsAndGets (ops : List Op) : Bool :=
  ops.all (fun op => match op with
    | .removeOldest => false
    | _ => true)

/-- Keys passed to Add, in call order. -/
def addedKeys (ops : List Op) : List String :=
  ops.filterMap (fun op => match op with
    | .add key _ => some key
    | _ => none)

/-- Value passed by the latest Add of the key, if any. -/
def lastAdded (ops : List Op) (key : String) : Option Value :=
  ops.reverse.findSome? (fun op => match op with
    | .add k v => if k = key then some v else none
    | _ => none)

/-- Scenario 3 after its first call: New(10) with a callback, Add(key1, 1234). -/
def recorded : Cache := addEntry (New 10 true) "key1" (S "1234")

/-- A cache of budget 5 with a callback, holding the key a. -/
def small : Cache := addEntry (New 5 true) "a" (S "1")

/-- The cache `small` after Add(bbb, ccc), which evicts twice. -/
def smallEmptied : Cache := RemoveOldest (RemoveOldest (addEntry small "bbb" (S "ccc")))

/-- Scenario 5: New(3), Add(aa, bb), which evicts the entry it inserted. -/
def selfEvicted : Cache := RemoveOldest (addEntry (New 3 false) "aa" (S "bb"))

/-- A run of Add and Get calls that adds the key a twice. -/
def unboundedCalls : List Op :=
  [.add "a" (S "1"), .add "b" (S "2"), .get "a", .add "a" (S "3")]

/-- Bytes that the insertion step of Add counts for the call, before any
wrap-around: the change of value size for a key in the index (line 65), the
key size plus the value size for a new key (line 70). -/
def addedBytes (c : Cache) (key : String) (value : Value) : Int :=
  match c.cache.lookup key with
  | some node => value.Len - (c.elems node).value.Len
  | none => (key.utf8ByteSize : Int) + value.Len

/-- Caches obtained from `New maxBytes cb` by finitely many calls of Get,
RemoveOldest and Add that returned, where every value passed to Add has a
non-negative Len and no Add makes usedBytes wrap around: usedBytes plus the
bytes the Add counts is an `int64`. -/
inductive ReachNoWrap (maxBytes : Int) (cb : Bool) : Cache → Prop
  | init : ReachNoWrap maxBytes cb (New maxBytes cb)
  | get {c : Cache} (key : String) :
      ReachNoWrap maxBytes cb c → ReachNoWrap maxBytes cb (Get c key).2.2
  | removeOldest {c : Cache} :
      ReachNoWrap maxBytes cb c → ReachNoWrap maxBytes cb (RemoveOldest c)
  | add {c c1 : Cache} (fuel : Nat) (key : String) (value : Value) :
      ReachNoWrap maxBytes cb c → NonNeg value →
      fits64 (c.usedBytes + addedBytes c key value) →
      Add fuel c key value = some c1 → ReachNoWrap maxBytes cb c1

/-- Accounting without wrap-around: the live values have non-negative sizes,
usedBytes is at least the total cost of the live entries, and it is an
`int64`. -/
structure Sound (c : Cache) : Prop where
  vals : ValsNonNeg c
  live : liveBytes c ≤ c.usedBytes
  fits : fits64 c.usedBytes

/-- A value whose Len is the largest `int64`, 2^63 - 1. -/
def huge : Value := ⟨"huge", 9223372036854775807⟩

/-- New(1), Add(ab, huge): line 70 wraps usedBytes around. -/
def wrapped : Cache := addEntry (New 1 false) "ab" huge

/-- New(10), Add(a, huge): line 70 wraps usedBytes around. -/
def hugeCached : Cache := addEntry (New 10 false) "a" huge

/-- New(0), Add(a, huge): line 70 wraps usedBytes around. -/
def hugeUnbounded : Cache := addEntry (New 0 false) "a" huge

/-! ## Arithmetic of `int64` -/

theorem wrap64_of_fits {x : Int} (h : fits64 x) : wrap64 x = x := by
  unfold wrap64
  unfold fits64 at h
  omega

theorem fits64_wrap64 (x : Int) : fits64 (wrap64 x) := by
  unfold wrap64 fits64
  omega

theorem add64_add64 (a b c : Int) : add64 a (add64 b c) = wrap64 (a + (b + c)) := by
  unfold add64 wrap64
  omega

theorem add64_sub64 (a b c : Int) : add64 a (sub64 b c) = wrap64 (a + (b - c)) := by
  unfold add64 sub64 wrap64
  omega

/-! ## Lemmas on the operations -/

theorem MoveToFront_mem {l : List Element} {e q : Element} :
    q ∈ MoveToFront l e ↔ q ∈ l := by
  unfold MoveToFront
  split
  · next h => exact (List.perm_cons_erase h).symm.mem_iff
  · rfl

theorem MoveToFront_nodup {l : List Element} {e : Element} (hl : l.Nodup) :
    (MoveToFront l e).Nodup := by
  unfold MoveToFront
  split
  · next h => exact (List.perm_cons_erase h).nodup_iff.mp hl
  · exact hl

theorem MoveToFront_length (l : List Element) (e : Element) :
    (MoveToFront l e).length = l.length := by
  unfold MoveToFront
  split
  · next h => exact (List.perm_cons_erase h).length_eq.symm
  · rfl

theorem erase_last_of_nodup {l : List Element} {p : Element} (hl : l.Nodup)
    (hp : l.getLast? = some p) : l.erase p = l.dropLast := by
  obtain ⟨ys, rfl⟩ := List.getLast?_eq_some_iff.mp hp
  have hnot : p ∉ ys := by
    intro hmem
    have := List.nodup_append.mp hl
    exact this.2.2 hmem (List.mem_singleton_self p)
  rw [List.erase_append_right _ hnot]
  simp

theorem Inv_New (m : Int) (cb : Bool) : Inv (New m cb) := by
  refine ⟨List.nodup_nil, ?_, ?_⟩
  · intro p hp; cases hp
  · intro k p
    simp [New, AList.lookup_empty]

theorem Inv_Get {c : Cache} (h : Inv c) (key : String) : Inv (Get c key).2.2 := by
  unfold Get
  cases hl : c.cache.lookup key with
  | none => simpa using h
  | some node =>
    refine ⟨MoveToFront_nodup h.nodup, ?_, ?_⟩
    · intro p hp
      exact h.fresh p (MoveToFront_mem.mp hp)
    · intro k p
      show c.cache.lookup k = some p ↔ (p ∈ MoveToFront c.ll node ∧ (c.elems p).key = k)
      rw [MoveToFront_mem]
      exact h.index k p

theorem Inv_RemoveOldest {c : Cache} (h : Inv c) : Inv (RemoveOldest c) := by
  unfold RemoveOldest
  cases hb : Back c.ll with
  | none => simpa using h
  | some node =>
    have hmem : node ∈ c.ll := List.mem_of_getLast?_eq_some hb
    refine ⟨h.nodup.erase node, ?_, ?_⟩
    · intro p hp
      exact h.fresh p (List.mem_of_mem_erase hp)
    · intro k p
      show (c.cache.erase (c.elems node).key).lookup k = some p ↔
        (p ∈ c.ll.erase node ∧ (c.elems p).key = k)
      rw [h.nodup.mem_erase_iff]
      by_cases hk : k = (c.elems node).key
      · subst hk
        rw [AList.lookup_erase]
        constructor
        · intro hx; cases hx
        · rintro ⟨⟨hne, hp⟩, hkey⟩
          have h1 := (h.index _ p).mpr ⟨hp, hkey⟩
          have h2 := (h.index _ node).mpr ⟨hmem, rfl⟩
          rw [h1] at h2
          exact absurd (Option.some.inj h2) hne
      · rw [AList.lookup_erase_ne hk, h.index k p]
        constructor
        · rintro ⟨hp, hkey⟩
          refine ⟨⟨?_, hp⟩, hkey⟩
          rintro rfl
          exact hk hkey.symm
        · rintro ⟨⟨_, hp⟩, hkey⟩
          exact ⟨hp, hkey⟩

theorem Inv_addEntry {c : Cache} (h : Inv c) (key : String) (value : Value) :
    Inv (addEntry c key value) := by
  unfold addEntry
  cases hl : c.cache.lookup key with
  | some node =>
    refine ⟨MoveToFront_nodup h.nodup, ?_, ?_⟩
    · intro p hp
      exact h.fresh p (MoveToFront_mem.mp hp)
    · intro k p
      show c.cache.lookup k = some p ↔ (p ∈ MoveToFront c.ll node ∧
        (Function.update c.elems node { c.elems node with value := value } p).key = k)
      rw [MoveToFront_mem, h.index k p]
      by_cases hp : p = node
      · subst hp; simp
      · rw [Function.update_noteq hp]
  | none =>
    have hfresh : c.next ∉ c.ll := fun hm => lt_irrefl _ (h.fresh _ hm)
    refine ⟨List.nodup_cons.mpr ⟨hfresh, h.nodup⟩, ?_, ?_⟩
    · intro p hp
      show p < c.next + 1
      rcases List.mem_cons.mp hp with rfl | hp
      · exact Nat.lt_succ_self _
      · exact Nat.lt_succ_of_lt (h.fresh p hp)
    · intro k p
      show (c.cache.insert key c.next).lookup k = some p ↔ (p ∈ c.next :: c.ll ∧
        (Function.update c.elems c.next ⟨key, value⟩ p).key = k)
      by_cases hk : k = key
      · subst hk
        rw [AList.lookup_insert]
        constructor
        · intro hx
          cases hx
          simp
        · rintro ⟨hp, hkey⟩
          rcases List.mem_cons.mp hp with rfl | hp
          · rfl
          · have hne : p ≠ c.next := fun e => hfresh (e ▸ hp)
            rw [Function.update_noteq hne] at hkey
            have := (h.index k p).mpr ⟨hp, hkey⟩
            rw [hl] at this
            cases this
      · rw [AList.lookup_insert_ne hk, h.index k p]
        constructor
        · rintro ⟨hp, hkey⟩
          have hne : p ≠ c.next := fun e => hfresh (e ▸ hp)
          exact ⟨List.mem_cons_of_mem _ hp, by rw [Function.update_noteq hne]; exact hkey⟩
        · rintro ⟨hp, hkey⟩
          rcases List.mem_cons.mp hp with rfl | hp
          · simp at hkey
            exact absurd hkey.symm hk
          · have hne : p ≠ c.next := fun e => hfresh (e ▸ hp)
            rw [Function.update_noteq hne] at hkey
            exact ⟨hp, hkey⟩

theorem Inv_evictLoop : ∀ (fuel : Nat) {c c1 : Cache}, Inv c →
    evictLoop fuel c = some c1 → Inv c1
  | 0, c, c1, h, he => by
    unfold evictLoop at he
    split at he
    · cases he
    · cases he; exact h
  | fuel + 1, c, c1, h, he => by
    unfold evictLoop at he
    split at he
    · exact Inv_evictLoop fuel (Inv_RemoveOldest h) he
    · cases he; exact h

theorem Inv_of_Reach {P : Value → Prop} {m : Int} {cb : Bool} {c : Cache}
    (h : Reach P m cb c) : Inv c := by
  induction h with
  | init => exact Inv_New m cb
  | get key _ ih => exact Inv_Get ih key
  | removeOldest _ ih => exact Inv_RemoveOldest ih
  | add fuel key value _ _ hadd ih => exact Inv_evictLoop fuel (Inv_addEntry ih key value) hadd

theorem RemoveOldest_maxBytes (c : Cache) : (RemoveOldest c).maxBytes = c.maxBytes := by
  unfold RemoveOldest
  cases Back c.ll <;> rfl

theorem addEntry_maxBytes (c : Cache) (k : String) (v : Value) :
    (addEntry c k v).maxBytes = c.maxBytes := by
  unfold addEntry
  cases c.cache.lookup k <;> rfl

theorem Get_maxBytes (c : Cache) (k : String) : (Get c k).2.2.maxBytes = c.maxBytes := by
  unfold Get
  cases c.cache.lookup k <;> rfl

theorem Get_usedBytes (c : Cache) (k : String) : (Get c k).2.2.usedBytes = c.usedBytes := by
  unfold Get
  cases c.cache.lookup k <;> rfl

theorem evictLoop_maxBytes : ∀ (fuel : Nat) {c c1 : Cache},
    evictLoop fuel c = some c1 → c1.maxBytes = c.maxBytes
  | 0, c, c1, he => by
    unfold evictLoop at he
    split at he
    · cases he
    · cases he; rfl
  | fuel + 1, c, c1, he => by
    unfold evictLoop at he
    split at he
    · rw [evictLoop_maxBytes fuel he, RemoveOldest_maxBytes]
    · cases he; rfl

theorem evictLoop_within : ∀ (fuel : Nat) {c c1 : Cache},
    evictLoop fuel c = some c1 → overBudget c1 = false
  | 0, c, c1, he => by
    unfold evictLoop at he
    split at he
    · cases he
    · next hn => cases he; simpa using hn
  | fuel + 1, c, c1, he => by
    unfold evictLoop at he
    split at he
    · exact evictLoop_within fuel he
    · next hn => cases he; simpa using hn

theorem le_of_not_overBudget {c : Cache} (h : overBudget c = false) (hpos : 0 < c.maxBytes) :
    c.usedBytes ≤ c.maxBytes := by
  unfold overBudget at h
  simp at h
  exact h (ne_of_gt hpos)

theorem ValsNonNeg_Get {c : Cache} (h : ValsNonNeg c) (k : String) :
    ValsNonNeg (Get c k).2.2 := by
  unfold Get
  cases c.cache.lookup k with
  | none => exact h
  | some node =>
    intro p hp
    exact h p (MoveToFront_mem.mp hp)

theorem ValsNonNeg_RemoveOldest {c : Cache} (h : ValsNonNeg c) :
    ValsNonNeg (RemoveOldest c) := by
  unfold RemoveOldest
  cases Back c.ll with
  | none => exact h
  | some node =>
    intro p hp
    exact h p (List.mem_of_mem_erase hp)

theorem ValsNonNeg_addEntry {c : Cache} (h : ValsNonNeg c) (k : String) {v : Value}
    (hv : NonNeg v) : ValsNonNeg (addEntry c k v) := by
  unfold addEntry
  cases c.cache.lookup k with
  | some node =>
    intro p hp
    show 0 ≤ (Function.update c.elems node { c.elems node with value := v } p).value.Len
    by_cases hpn : p = node
    · subst hpn
      simpa using hv
    · rw [Function.update_noteq hpn]
      exact h p (MoveToFront_mem.mp hp)
  | none =>
    intro p hp
    show 0 ≤ (Function.update c.elems c.next ⟨k, v⟩ p).value.Len
    by_cases hpn : p = c.next
    · subst hpn
      simpa using hv
    · rw [Function.update_noteq hpn]
      rcases List.mem_cons.mp hp with rfl | hp
      · exact absurd rfl hpn
      · exact h p hp

theorem ValsNonNeg_evictLoop : ∀ (fuel : Nat) {c c1 : Cache}, ValsNonNeg c →
    evictLoop fuel c = some c1 → ValsNonNeg c1
  | 0, c, c1, h, he => by
    unfold evictLoop at he
    split at he
    · cases he
    · cases he; exact h
  | fuel + 1, c, c1, h, he => by
    unfold evictLoop at he
    split at he
    · exact ValsNonNeg_evictLoop fuel (ValsNonNeg_RemoveOldest h) he
    · cases he; exact h

theorem Reach_maxBytes {P : Value → Prop} {m : Int} {cb : Bool} {c : Cache}
    (h : Reach P m cb c) : c.maxBytes = m := by
  induction h with
  | init => rfl
  | get key _ ih => rw [Get_maxBytes, ih]
  | removeOldest _ ih => rw [RemoveOldest_maxBytes, ih]
  | add fuel key value _ _ hadd ih =>
    rw [evictLoop_maxBytes fuel hadd, addEntry_maxBytes, ih]

theorem Reach_valsNonNeg {m : Int} {cb : Bool} {c : Cache}
    (h : Reach NonNeg m cb c) : ValsNonNeg c := by
  induction h with
  | init => intro p hp; cases hp
  | get key _ ih => exact ValsNonNeg_Get ih key
  | removeOldest _ ih => exact ValsNonNeg_RemoveOldest ih
  | add fuel key value _ hv hadd ih =>
    exact ValsNonNeg_evictLoop fuel (ValsNonNeg_addEntry ih key hv) hadd

theorem evictLoop_stuck {c : Cache} (hover : overBudget c = true) (hnil : c.ll = []) :
    ∀ fuel, evictLoop fuel c = none
  | 0 => by simp [evictLoop, hover]
  | fuel + 1 => by
    have hrem : RemoveOldest c = c := by simp [RemoveOldest, Back, hnil]
    rw [evictLoop, if_pos hover, hrem]
    exact evictLoop_stuck hover hnil fuel

theorem lookup_of_mem {c : Cache} (h : Inv c) {p : Element} (hp : p ∈ c.ll) :
    c.cache.lookup (c.elems p).key = some p :=
  (h.index _ p).mpr ⟨hp, rfl⟩

theorem key_unique {c : Cache} (h : Inv c) {p q : Element} (hp : p ∈ c.ll) (hq : q ∈ c.ll)
    (hk : (c.elems p).key = (c.elems q).key) : p = q := by
  have h1 := lookup_of_mem h hp
  have h2 := lookup_of_mem h hq
  rw [hk, h2] at h1
  exact (Option.some.inj h1).symm

theorem stored_eq_lookup {c : Cache} (h : Inv c) (k : String) :
    stored c k = (c.cache.lookup k).map (fun p => (c.elems p).value) := by
  unfold stored entries
  cases hl : c.cache.lookup k with
  | none =>
    have hnone : (c.ll.map c.elems).find? (fun e => e.key == k) = none := by
      rw [List.find?_eq_none]
      intro e he hkey
      obtain ⟨q, hq, rfl⟩ := List.mem_map.mp he
      have := (h.index k q).mpr ⟨hq, by simpa using hkey⟩
      rw [hl] at this
      cases this
    rw [hnone]
    rfl
  | some p =>
    obtain ⟨hp, hkey⟩ := (h.index k p).mp hl
    cases hf : (c.ll.map c.elems).find? (fun e => e.key == k) with
    | none =>
      rw [List.find?_eq_none] at hf
      exact absurd (by simpa using hkey) (hf (c.elems p) (List.mem_map_of_mem _ hp))
    | some e =>
      obtain ⟨q, hq, rfl⟩ := List.mem_map.mp (List.mem_of_find?_eq_some hf)
      have hqk : (c.elems q).key = k := by simpa using List.find?_some hf
      have : q = p := key_unique h hq hp (hqk.trans hkey.symm)
      subst this
      rfl

theorem lookup_eq_none_of_absent {c : Cache} (h : Inv c) {k : String}
    (hk : ∀ e ∈ entries c, e.key ≠ k) : c.cache.lookup k = none := by
  cases hl : c.cache.lookup k with
  | none => rfl
  | some p =>
    obtain ⟨hp, hkey⟩ := (h.index k p).mp hl
    exact absurd hkey (hk (c.elems p) (List.mem_map_of_mem _ hp))

theorem absent_of_lookup_eq_none {c : Cache} (h : Inv c) {k : String}
    (hl : c.cache.lookup k = none) : ∀ e ∈ entries c, e.key ≠ k := by
  intro e he hkey
  obtain ⟨q, hq, rfl⟩ := List.mem_map.mp he
  have := (h.index k q).mpr ⟨hq, hkey⟩
  rw [hl] at this
  cases this

/-- Moving the node the index holds for `k` to the front: the other entries keep
their order. -/
theorem erase_map_eq_filter {c : Cache} (h : Inv c) {k : String} {p : Element}
    (hl : c.cache.lookup k = some p) :
    (c.ll.erase p).map c.elems = (entries c).filter (fun e => e.key != k) := by
  obtain ⟨hp, hkey⟩ := (h.index k p).mp hl
  unfold entries
  rw [h.nodup.erase_eq_filter, List.filter_map]
  congr 1
  apply List.filter_congr
  intro q hq
  by_cases hqp : q = p
  · subst hqp
    simp [hkey]
  · have hne : (c.elems q).key ≠ k := fun hk =>
      hqp (key_unique h hq hp (hk.trans hkey.symm))
    have h1 : (q != p) = true := by simpa using hqp
    have h2 : ((c.elems q).key != k) = true := by simpa using hne
    simp only [Function.comp, h1, h2]

theorem entries_addEntry {c : Cache} (h : Inv c) (k : String) (v : Value) :
    entries (addEntry c k v) = ⟨k, v⟩ :: (entries c).filter (fun e => e.key != k) := by
  cases hl : c.cache.lookup k with
  | some p =>
    obtain ⟨hp, hkey⟩ := (h.index k p).mp hl
    have hadd : addEntry c k v = { c with
        ll := MoveToFront c.ll p
        usedBytes := add64 c.usedBytes (sub64 v.Len (c.elems p).value.Len)
        elems := Function.update c.elems p { c.elems p with value := v } } := by
      unfold addEntry
      rw [hl]
    rw [hadd, ← erase_map_eq_filter h hl]
    show (MoveToFront c.ll p).map (Function.update c.elems p { c.elems p with value := v }) = _
    unfold MoveToFront
    rw [if_pos hp, List.map_cons, Function.update_same]
    congr 1
    · show (⟨(c.elems p).key, v⟩ : entry) = ⟨k, v⟩
      rw [hkey]
    · apply List.map_congr_left
      intro q hq
      have hqp : q ≠ p := fun e => h.nodup.not_mem_erase (e ▸ hq)
      rw [Function.update_noteq hqp]
  | none =>
    have hadd : addEntry c k v = { c with
        ll := c.next :: c.ll
        elems := Function.update c.elems c.next ⟨k, v⟩
        next := c.next + 1
        cache := c.cache.insert k c.next
        usedBytes := add64 c.usedBytes (add64 (k.utf8ByteSize : Int) v.Len) } := by
      unfold addEntry
      rw [hl]
    have hfresh : c.next ∉ c.ll := fun hm => lt_irrefl _ (h.fresh _ hm)
    have hfil : (entries c).filter (fun e => e.key != k) = entries c := by
      rw [List.filter_eq_self]
      intro e he
      simpa using absent_of_lookup_eq_none h hl e he
    rw [hadd, hfil]
    show (c.next :: c.ll).map (Function.update c.elems c.next ⟨k, v⟩) = _
    rw [List.map_cons, Function.update_same]
    congr 1
    apply List.map_congr_left
    intro q hq
    have hqp : q ≠ c.next := fun e => hfresh (e ▸ hq)
    rw [Function.update_noteq hqp]

theorem entries_RemoveOldest {c : Cache} (h : Inv c) :
    entries (RemoveOldest c) = (entries c).dropLast := by
  unfold RemoveOldest
  cases hb : Back c.ll with
  | none =>
    have hnil : c.ll = [] := by simpa [Back] using hb
    simp [entries, hnil]
  | some p =>
    show (c.ll.erase p).map c.elems = _
    rw [erase_last_of_nodup h.nodup hb, List.map_dropLast]
    rfl

theorem entries_evictLoop : ∀ (fuel : Nat) {c c1 : Cache}, Inv c →
    evictLoop fuel c = some c1 → entries c1 <+: entries c
  | 0, c, c1, _, he => by
    unfold evictLoop at he
    split at he
    · cases he
    · cases he; exact List.prefix_refl _
  | fuel + 1, c, c1, h, he => by
    unfold evictLoop at he
    split at he
    · have hpre := entries_evictLoop fuel (Inv_RemoveOldest h) he
      rw [entries_RemoveOldest h] at hpre
      exact hpre.trans (List.dropLast_prefix _)
    · cases he; exact List.prefix_refl _

theorem Ordered.sublist {L L1 : List entry} {t : String → Nat} {n : Nat}
    (h : Ordered L t n) (hs : L1.Sublist L) : Ordered L1 t n :=
  ⟨h.1.sublist (hs.map _), fun e he => h.2 e (hs.subset he)⟩

theorem Ordered.mono {L : List entry} {t : String → Nat} {n : Nat}
    (h : Ordered L t n) : Ordered L t (n + 1) :=
  ⟨h.1, fun e he => Nat.le_succ_of_le (h.2 e he)⟩

theorem Ordered.touch {L : List entry} {t : String → Nat} {n : Nat}
    (h : Ordered L t n) (k : String) (v : Value) :
    Ordered (⟨k, v⟩ :: L.filter (fun e => e.key != k)) (Function.update t k (n + 1)) (n + 1) := by
  have hsame : ∀ e ∈ L.filter (fun e => e.key != k),
      Function.update t k (n + 1) e.key = t e.key := by
    intro e he
    have hne : e.key ≠ k := by simpa using (List.mem_filter.mp he).2
    exact Function.update_noteq hne _ _
  have hrest : Ordered (L.filter (fun e => e.key != k)) t n :=
    h.sublist (List.filter_sublist L)
  constructor
  · rw [List.map_cons, List.pairwise_cons, Function.update_same]
    constructor
    · intro x hx
      obtain ⟨e, he, rfl⟩ := List.mem_map.mp hx
      rw [hsame e he]
      exact Nat.lt_succ_of_le (hrest.2 e he)
    · rw [List.map_congr_left hsame]
      exact hrest.1
  · intro e he
    rcases List.mem_cons.mp he with rfl | he
    · simp
    · rw [hsame e he]
      exact Nat.le_succ_of_le (hrest.2 e he)

theorem Timed.step_ordered {fuel : Nat} {s s1 : Timed} {op : Op} (hinv : Inv s.cache)
    (hord : Ordered (entries s.cache) s.lastTouch s.clock)
    (hstep : Timed.step fuel s op = some s1) :
    Inv s1.cache ∧ Ordered (entries s1.cache) s1.lastTouch s1.clock := by
  unfold Timed.step at hstep
  cases op with
  | add key value =>
    cases hc : Add fuel s.cache key value with
    | none => simp [call, hc] at hstep
    | some c1 =>
      simp only [call, hc, touched, Option.some.injEq] at hstep
      subst hstep
      have hinv1 := Inv_addEntry hinv key value
      refine ⟨Inv_evictLoop fuel hinv1 hc, ?_⟩
      have hpre := entries_evictLoop fuel hinv1 hc
      rw [entries_addEntry hinv] at hpre
      exact (hord.touch key value).sublist hpre.sublist
  | get key =>
    simp only [call, touched, Option.some.injEq] at hstep
    subst hstep
    refine ⟨Inv_Get hinv key, ?_⟩
    cases hl : s.cache.cache.lookup key with
    | none =>
      have hget : Get s.cache key = (none, false, s.cache) := by
        unfold Get
        rw [hl]
      simp only [hget]
      exact hord.mono
    | some p =>
      obtain ⟨hp, hkey⟩ := (hinv.index key p).mp hl
      have hget : Get s.cache key = (some (s.cache.elems p).value, true,
          { s.cache with ll := MoveToFront s.cache.ll p }) := by
        unfold Get
        rw [hl]
      simp only [hget]
      have hent : entries { s.cache with ll := MoveToFront s.cache.ll p } =
          ⟨key, (s.cache.elems p).value⟩ :: (entries s.cache).filter (fun e => e.key != key) := by
        rw [← erase_map_eq_filter hinv hl]
        show (MoveToFront s.cache.ll p).map s.cache.elems = _
        unfold MoveToFront
        rw [if_pos hp, List.map_cons, ← hkey]
      rw [hent]
      exact hord.touch key _
  | removeOldest =>
    simp only [call, touched, Option.some.injEq] at hstep
    subst hstep
    refine ⟨Inv_RemoveOldest hinv, ?_⟩
    show Ordered (entries (RemoveOldest s.cache)) s.lastTouch (s.clock + 1)
    rw [entries_RemoveOldest hinv]
    exact hord.mono.sublist (List.dropLast_prefix _).sublist

theorem Timed.run_ordered (fuel : Nat) : ∀ (ops : List Op) {s s1 : Timed}, Inv s.cache →
    Ordered (entries s.cache) s.lastTouch s.clock → Timed.run fuel s ops = some s1 →
    Inv s1.cache ∧ Ordered (entries s1.cache) s1.lastTouch s1.clock
  | [], s, s1, hinv, hord, hrun => by
    unfold Timed.run at hrun
    cases hrun
    exact ⟨hinv, hord⟩
  | op :: ops, s, s1, hinv, hord, hrun => by
    unfold Timed.run at hrun
    cases hs : Timed.step fuel s op with
    | none => simp [hs] at hrun
    | some s2 =>
      simp only [hs] at hrun
      obtain ⟨hinv2, hord2⟩ := Timed.step_ordered hinv hord hs
      exact Timed.run_ordered fuel ops hinv2 hord2 hrun

theorem liveBytes_eq (c : Cache) :
    liveBytes c = (c.ll.map (fun p => cost (c.elems p))).sum := by
  unfold liveBytes entries
  rw [List.map_map]
  rfl

theorem cost_key_le (e : entry) : e.value.Len ≤ cost e := by
  unfold cost
  have : (0 : Int) ≤ (e.key.utf8ByteSize : Int) := Int.natCast_nonneg _
  omega

theorem liveBytes_Get (c : Cache) (k : String) : liveBytes (Get c k).2.2 = liveBytes c := by
  unfold Get
  cases c.cache.lookup k with
  | none => rfl
  | some p =>
    rw [liveBytes_eq, liveBytes_eq]
    show ((MoveToFront c.ll p).map (fun q => cost (c.elems q))).sum = _
    unfold MoveToFront
    split
    · next hp =>
      rw [List.map_cons, List.sum_cons]
      exact List.sum_map_erase (fun q => cost (c.elems q)) hp
    · rfl

/-- Removing the back entry takes its cost off the live total. -/
theorem liveBytes_RemoveOldest {c : Cache} {p : Element} (hb : Back c.ll = some p) :
    liveBytes (RemoveOldest c) + cost (c.elems p) = liveBytes c := by
  have hp : p ∈ c.ll := List.mem_of_getLast?_eq_some hb
  have hrem : RemoveOldest c = { c with
      ll := Remove c.ll p
      cache := c.cache.erase (c.elems p).key
      usedBytes := sub64 c.usedBytes (c.elems p).value.Len
      calls := if c.OnEvicted then c.calls ++ [((c.elems p).key, (c.elems p).value)]
        else c.calls } := by
    unfold RemoveOldest
    rw [hb]
  rw [hrem, liveBytes_eq, liveBytes_eq]
  show ((c.ll.erase p).map (fun q => cost (c.elems q))).sum + cost (c.elems p) = _
  rw [add_comm]
  exact List.sum_map_erase (fun q => cost (c.elems q)) hp

theorem RemoveOldest_usedBytes {c : Cache} {p : Element} (hb : Back c.ll = some p) :
    (RemoveOldest c).usedBytes = sub64 c.usedBytes (c.elems p).value.Len := by
  unfold RemoveOldest
  rw [hb]

theorem RemoveOldest_of_nil {c : Cache} (h : c.ll = []) : RemoveOldest c = c := by
  simp [RemoveOldest, Back, h]

theorem liveBytes_nonneg {c : Cache} (h : ValsNonNeg c) : 0 ≤ liveBytes c := by
  rw [liveBytes_eq]
  apply List.sum_nonneg
  intro x hx
  obtain ⟨p, hp, rfl⟩ := List.mem_map.mp hx
  exact le_trans (h p hp) (cost_key_le _)

/-- With sound accounting, line 53 does not wrap around. -/
theorem RemoveOldest_usedBytes_exact {c : Cache} (h : Sound c) {p : Element}
    (hb : Back c.ll = some p) :
    (RemoveOldest c).usedBytes = c.usedBytes - (c.elems p).value.Len := by
  have hp : p ∈ c.ll := List.mem_of_getLast?_eq_some hb
  have hL := h.vals p hp
  have hsplit := liveBytes_RemoveOldest hb
  have hnn := liveBytes_nonneg (ValsNonNeg_RemoveOldest h.vals)
  have hcost := cost_key_le (c.elems p)
  have hlive := h.live
  have hfits := h.fits
  rw [RemoveOldest_usedBytes hb]
  unfold sub64
  apply wrap64_of_fits
  unfold fits64 at hfits ⊢
  constructor <;> omega

theorem Sound_RemoveOldest {c : Cache} (h : Sound c) : Sound (RemoveOldest c) := by
  cases hb : Back c.ll with
  | none =>
    have hnil : c.ll = [] := by simpa [Back] using hb
    rw [RemoveOldest_of_nil hnil]
    exact h
  | some p =>
    have hused := RemoveOldest_usedBytes_exact h hb
    have hL := h.vals p (List.mem_of_getLast?_eq_some hb)
    have hsplit := liveBytes_RemoveOldest hb
    have hnn := liveBytes_nonneg (ValsNonNeg_RemoveOldest h.vals)
    have hcost := cost_key_le (c.elems p)
    have hlive := h.live
    have hfits := h.fits
    refine ⟨ValsNonNeg_RemoveOldest h.vals, by omega, ?_⟩
    unfold fits64 at hfits ⊢
    constructor <;> omega

theorem RemoveOldest_usedBytes_le {c : Cache} (h : Sound c) :
    (RemoveOldest c).usedBytes ≤ c.usedBytes := by
  cases hb : Back c.ll with
  | none =>
    have hnil : c.ll = [] := by simpa [Back] using hb
    rw [RemoveOldest_of_nil hnil]
  | some p =>
    have hused := RemoveOldest_usedBytes_exact h hb
    have hL := h.vals p (List.mem_of_getLast?_eq_some hb)
    omega

theorem addedBytes_hit {c : Cache} {k : String} {p : Element} (v : Value)
    (hl : c.cache.lookup k = some p) :
    addedBytes c k v = v.Len - (c.elems p).value.Len := by
  unfold addedBytes
  rw [hl]

theorem addedBytes_new {c : Cache} {k : String} (v : Value)
    (hl : c.cache.lookup k = none) :
    addedBytes c k v = (k.utf8ByteSize : Int) + v.Len := by
  unfold addedBytes
  rw [hl]

/-- Lines 65 and 70: usedBytes after the insertion step, in the arithmetic of
`int64`. -/
theorem addEntry_usedBytes (c : Cache) (k : String) (v : Value) :
    (addEntry c k v).usedBytes = wrap64 (c.usedBytes + addedBytes c k v) := by
  unfold addEntry addedBytes
  cases c.cache.lookup k with
  | some p => exact add64_sub64 _ _ _
  | none => exact add64_add64 _ _ _

/-- The insertion step of Add changes the live total by the bytes it counts. -/
theorem liveBytes_addEntry {c : Cache} (h : Inv c) (k : String) (v : Value) :
    liveBytes (addEntry c k v) = liveBytes c + addedBytes c k v := by
  cases hl : c.cache.lookup k with
  | some p =>
    obtain ⟨hp, _⟩ := (h.index k p).mp hl
    have hadd : addEntry c k v = { c with
        ll := MoveToFront c.ll p
        usedBytes := add64 c.usedBytes (sub64 v.Len (c.elems p).value.Len)
        elems := Function.update c.elems p { c.elems p with value := v } } := by
      unfold addEntry
      rw [hl]
    have hsum : liveBytes (addEntry c k v) =
        cost ⟨(c.elems p).key, v⟩ + ((c.ll.erase p).map (fun q => cost (c.elems q))).sum := by
      rw [hadd, liveBytes_eq]
      show ((MoveToFront c.ll p).map (fun q => cost
        (Function.update c.elems p { c.elems p with value := v } q))).sum = _
      unfold MoveToFront
      rw [if_pos hp, List.map_cons, List.sum_cons, Function.update_same]
      congr 2
      apply List.map_congr_left
      intro q hq
      have hqp : q ≠ p := fun e => h.nodup.not_mem_erase (e ▸ hq)
      rw [Function.update_noteq hqp]
    have hold : cost (c.elems p) + ((c.ll.erase p).map (fun q => cost (c.elems q))).sum =
        liveBytes c := by
      rw [liveBytes_eq]
      exact List.sum_map_erase (fun q => cost (c.elems q)) hp
    rw [hsum, addedBytes_hit v hl]
    unfold cost at hold ⊢
    simp only at hold ⊢
    omega
  | none =>
    have hadd : addEntry c k v = { c with
        ll := c.next :: c.ll
        elems := Function.update c.elems c.next ⟨k, v⟩
        next := c.next + 1
        cache := c.cache.insert k c.next
        usedBytes := add64 c.usedBytes (add64 (k.utf8ByteSize : Int) v.Len) } := by
      unfold addEntry
      rw [hl]
    have hfresh : c.next ∉ c.ll := fun hm => lt_irrefl _ (h.fresh _ hm)
    have hsum : liveBytes (addEntry c k v) = cost ⟨k, v⟩ + liveBytes c := by
      rw [hadd, liveBytes_eq, liveBytes_eq]
      show ((c.next :: c.ll).map (fun q => cost
        (Function.update c.elems c.next ⟨k, v⟩ q))).sum = _
      rw [List.map_cons, List.sum_cons, Function.update_same]
      congr 2
      apply List.map_congr_left
      intro q hq
      have hqp : q ≠ c.next := fun e => hfresh (e ▸ hq)
      rw [Function.update_noteq hqp]
    rw [hsum, addedBytes_new v hl]
    unfold cost
    simp only
    omega

theorem Sound_addEntry {c : Cache} (hinv : Inv c) (h : Sound c) (k : String) {v : Value}
    (hv : NonNeg v) (hfit : fits64 (c.usedBytes + addedBytes c k v)) :
    Sound (addEntry c k v) := by
  have hused : (addEntry c k v).usedBytes = c.usedBytes + addedBytes c k v := by
    rw [addEntry_usedBytes, wrap64_of_fits hfit]
  have hlive := liveBytes_addEntry hinv k v
  have := h.live
  refine ⟨ValsNonNeg_addEntry h.vals k hv, by omega, ?_⟩
  rw [hused]
  exact hfit

theorem Sound_evictLoop : ∀ (fuel : Nat) {c c1 : Cache}, Sound c →
    evictLoop fuel c = some c1 → Sound c1
  | 0, c, c1, h, he => by
    unfold evictLoop at he
    split at he
    · cases he
    · cases he; exact h
  | fuel + 1, c, c1, h, he => by
    unfold evictLoop at he
    split at he
    · exact Sound_evictLoop fuel (Sound_RemoveOldest h) he
    · cases he; exact h

theorem Sound_New (m : Int) (cb : Bool) : Sound (New m cb) := by
  refine ⟨?_, le_refl _, ?_⟩
  · intro p hp
    cases hp
  · show fits64 0
    decide

theorem Sound_Get {c : Cache} (h : Sound c) (k : String) : Sound (Get c k).2.2 := by
  refine ⟨ValsNonNeg_Get h.vals k, ?_, ?_⟩
  · rw [liveBytes_Get, Get_usedBytes]
    exact h.live
  · rw [Get_usedBytes]
    exact h.fits

theorem reach_of_ReachNoWrap {m : Int} {cb : Bool} {c : Cache}
    (h : ReachNoWrap m cb c) : Reach NonNeg m cb c := by
  induction h with
  | init => exact Reach.init
  | get key _ ih => exact Reach.get key ih
  | removeOldest _ ih => exact Reach.removeOldest ih
  | add fuel key value _ hv _ hadd ih => exact Reach.add fuel key value ih hv hadd

theorem Sound_of_ReachNoWrap {m : Int} {cb : Bool} {c : Cache}
    (h : ReachNoWrap m cb c) : Sound c := by
  induction h with
  | init => exact Sound_New m cb
  | get key _ ih => exact Sound_Get ih key
  | removeOldest _ ih => exact Sound_RemoveOldest ih
  | add fuel key value hc hv hfit hadd ih =>
    exact Sound_evictLoop fuel
      (Sound_addEntry (Inv_of_Reach (reach_of_ReachNoWrap hc)) ih key hv hfit) hadd

theorem RemoveOldest_OnEvicted (c : Cache) : (RemoveOldest c).OnEvicted = c.OnEvicted := by
  unfold RemoveOldest
  cases Back c.ll <;> rfl

theorem addEntry_OnEvicted (c : Cache) (k : String) (v : Value) :
    (addEntry c k v).OnEvicted = c.OnEvicted := by
  unfold addEntry
  cases c.cache.lookup k <;> rfl

theorem addEntry_calls (c : Cache) (k : String) (v : Value) :
    (addEntry c k v).calls = c.calls := by
  unfold addEntry
  cases c.cache.lookup k <;> rfl

theorem RemoveOldest_calls {c : Cache} {p : Element} (hb : Back c.ll = some p) :
    (RemoveOldest c).calls =
      if c.OnEvicted then c.calls ++ [((c.elems p).key, (c.elems p).value)] else c.calls := by
  unfold RemoveOldest
  rw [hb]

theorem entries_split_back {c : Cache} {p : Element} (h : Inv c) (hb : Back c.ll = some p) :
    entries c = entries (RemoveOldest c) ++ [c.elems p] := by
  rw [entries_RemoveOldest h]
  have hlast : (entries c).getLast? = some (c.elems p) := by
    unfold entries
    rw [List.getLast?_map]
    unfold Back at hb
    rw [hb]
    rfl
  exact (List.dropLast_append_getLast? _ hlast).symm

/-- The loop of Add removes a run of entries from the back and hands them to
the callback, back entry first. -/
theorem evictLoop_calls : ∀ (fuel : Nat) {c c1 : Cache}, Inv c →
    evictLoop fuel c = some c1 →
    ∃ ev, entries c = entries c1 ++ ev ∧
      c1.calls = if c.OnEvicted then c.calls ++ evictedCalls ev else c.calls
  | 0, c, c1, _, he => by
    unfold evictLoop at he
    split at he
    · cases he
    · cases he
      exact ⟨[], by simp, by simp [evictedCalls]⟩
  | fuel + 1, c, c1, h, he => by
    unfold evictLoop at he
    split at he
    · obtain ⟨ev, hent, hcalls⟩ := evictLoop_calls fuel (Inv_RemoveOldest h) he
      rw [RemoveOldest_OnEvicted] at hcalls
      cases hb : Back c.ll with
      | none =>
        have hnil : c.ll = [] := by simpa [Back] using hb
        rw [RemoveOldest_of_nil hnil] at hent hcalls
        exact ⟨ev, hent, hcalls⟩
      | some p =>
        refine ⟨ev ++ [c.elems p], ?_, ?_⟩
        · rw [entries_split_back h hb, hent, List.append_assoc]
        · rw [hcalls, RemoveOldest_calls hb]
          cases c.OnEvicted
          · simp
          · simp [evictedCalls]
    · cases he
      exact ⟨[], by simp, by simp [evictedCalls]⟩

theorem not_overBudget_of {c : Cache} (k : String) (v : Value)
    (hno : c.maxBytes = 0 ∨ (addEntry c k v).usedBytes ≤ c.maxBytes) :
    overBudget (addEntry c k v) = false := by
  unfold overBudget
  rw [addEntry_maxBytes]
  rcases hno with h0 | hle
  · simp [h0]
  · simp [not_lt.mpr hle]

theorem Add_of_not_overBudget {c : Cache} {k : String} {v : Value}
    (h : overBudget (addEntry c k v) = false) (fuel : Nat) :
    Add fuel c k v = some (addEntry c k v) := by
  unfold Add
  cases fuel <;> simp [evictLoop, h]

theorem cost_nonneg_of_mem {c : Cache} (h : ValsNonNeg c) {e : entry} (he : e ∈ entries c) :
    0 ≤ cost e := by
  obtain ⟨p, hp, rfl⟩ := List.mem_map.mp he
  exact le_trans (h p hp) (cost_key_le _)

theorem runOps_snoc (fuel : Nat) : ∀ (ops : List Op) (c : Cache) (op : Op),
    runOps fuel c (ops ++ [op]) = (runOps fuel c ops).bind (fun c1 => call fuel c1 op)
  | [], c, op => by
    simp only [List.nil_append, runOps, Option.some_bind]
    cases call fuel c op <;> rfl
  | o :: ops, c, op => by
    simp only [List.cons_append, runOps]
    cases call fuel c o with
    | none => rfl
    | some c1 => exact runOps_snoc fuel ops c1 op

theorem stored_Get {c : Cache} (h : Inv c) (k k1 : String) :
    stored (Get c k).2.2 k1 = stored c k1 := by
  rw [stored_eq_lookup (Inv_Get h k), stored_eq_lookup h]
  unfold Get
  cases c.cache.lookup k <;> rfl

theorem stored_addEntry {c : Cache} (h : Inv c) (k : String) (v : Value) (k1 : String) :
    stored (addEntry c k v) k1 = if k1 = k then some v else stored c k1 := by
  unfold stored
  rw [entries_addEntry h]
  by_cases hk : k1 = k
  · subst hk
    simp
  · rw [if_neg hk]
    have hne : (k == k1) = false := by simpa using fun e => hk e.symm
    rw [List.find?_cons]
    simp only [hne]
    rw [List.find?_filter]
    congr 2
    funext a
    by_cases ha : a.key = k1
    · subst ha
      simp [hk]
    · simp [ha]

theorem Get_of_stored {c : Cache} (h : Inv c) {k : String} {v : Value}
    (hs : stored c k = some v) : (Get c k).1 = some v ∧ (Get c k).2.1 = true := by
  rw [stored_eq_lookup h] at hs
  unfold Get
  cases hl : c.cache.lookup k with
  | none => rw [hl] at hs; cases hs
  | some p =>
    rw [hl] at hs
    have hv : (c.elems p).value = v := by simpa using hs
    simp [hv]

theorem lastAdded_snoc_add (ops : List Op) (k : String) (v : Value) (k1 : String) :
    lastAdded (ops ++ [Op.add k v]) k1 = if k1 = k then some v else lastAdded ops k1 := by
  unfold lastAdded
  rw [List.reverse_append, List.reverse_singleton, List.singleton_append, List.findSome?_cons]
  by_cases hk : k1 = k
  · subst hk
    simp
  · have hne : ¬ k = k1 := fun e => hk e.symm
    simp [hk, hne]

theorem lastAdded_snoc_get (ops : List Op) (k : String) (k1 : String) :
    lastAdded (ops ++ [Op.get k]) k1 = lastAdded ops k1 := by
  unfold lastAdded
  rw [List.reverse_append, List.reverse_singleton, List.singleton_append, List.findSome?_cons]

theorem lastAdded_isSome (ops : List Op) (k : String) :
    (lastAdded ops k).isSome ↔ k ∈ addedKeys ops := by
  unfold lastAdded addedKeys
  rw [List.findSome?_isSome_iff, List.mem_filterMap]
  constructor
  · rintro ⟨op, hop, hsome⟩
    refine ⟨op, List.mem_reverse.mp hop, ?_⟩
    cases op with
    | add k2 v =>
      by_cases hk : k2 = k
      · simp [hk]
      · simp [hk] at hsome
    | get k2 => simp at hsome
    | removeOldest => simp at hsome
  · rintro ⟨op, hop, hkey⟩
    refine ⟨op, List.mem_reverse.mpr hop, ?_⟩
    cases op with
    | add k2 v =>
      have hk : k2 = k := by simpa using hkey
      simp [hk]
    | get k2 => simp at hkey
    | removeOldest => simp at hkey

theorem stored_isSome (c : Cache) (k : String) :
    (stored c k).isSome ↔ k ∈ (entries c).map entry.key := by
  unfold stored
  rw [Option.isSome_map', List.find?_isSome, List.mem_map]
  constructor
  · rintro ⟨e, he, hk⟩
    exact ⟨e, he, by simpa using hk⟩
  · rintro ⟨e, he, hk⟩
    exact ⟨e, he, by simpa using hk⟩

theorem entry_keys_nodup {c : Cache} (h : Inv c) : ((entries c).map entry.key).Nodup := by
  unfold entries
  rw [List.map_map]
  exact List.Nodup.map_on (fun p hp q hq hk => key_unique h hp hq hk) h.nodup

/-- With budget 0 and no RemoveOldest, the cache holds exactly what the Adds
stored last. -/
theorem runOps_unbounded (cb : Bool) (fuel : Nat) (ops : List Op)
    (hops : addsAndGets ops = true) :
    ∃ c, runOps fuel (New 0 cb) ops = some c ∧ Inv c ∧ c.maxBytes = 0 ∧ c.calls = [] ∧
      ∀ k, stored c k = lastAdded ops k := by
  induction ops using List.reverseRecOn with
  | nil =>
    exact ⟨New 0 cb, rfl, Inv_New 0 cb, rfl, rfl, fun k => rfl⟩
  | append_singleton ops op ih =>
    have hsplit : addsAndGets ops = true ∧ addsAndGets [op] = true := by
      unfold addsAndGets at hops ⊢
      rw [List.all_append] at hops
      simpa using hops
    obtain ⟨c, hrun, hinv, hmax, hcalls, hst⟩ := ih hsplit.1
    rw [runOps_snoc, hrun, Option.some_bind]
    cases op with
    | add k v =>
      have hover : overBudget (addEntry c k v) = false := not_overBudget_of k v (Or.inl hmax)
      refine ⟨addEntry c k v, Add_of_not_overBudget hover fuel, Inv_addEntry hinv k v, ?_, ?_, ?_⟩
      · rw [addEntry_maxBytes, hmax]
      · rw [addEntry_calls, hcalls]
      · intro k1
        rw [stored_addEntry hinv, lastAdded_snoc_add, hst]
    | get k =>
      refine ⟨(Get c k).2.2, rfl, Inv_Get hinv k, ?_, ?_, ?_⟩
      · rw [Get_maxBytes, hmax]
      · unfold Get
        cases c.cache.lookup k <;> exact hcalls
      · intro k1
        rw [stored_Get hinv, lastAdded_snoc_get, hst]
    | removeOldest =>
      have := hsplit.2
      simp [addsAndGets] at this

theorem valBytes_eq (c : Cache) :
    valBytes c = (c.ll.map (fun p => (c.elems p).value.Len)).sum := by
  unfold valBytes entries
  rw [List.map_map]
  rfl

/-- With sound accounting, RemoveOldest lowers usedBytes and the total of the
live value sizes by the same amount. -/
theorem RemoveOldest_keyBytes {c : Cache} (h : Sound c) :
    (RemoveOldest c).usedBytes - valBytes (RemoveOldest c) = c.usedBytes - valBytes c := by
  cases hb : Back c.ll with
  | none =>
    have hnil : c.ll = [] := by simpa [Back] using hb
    rw [RemoveOldest_of_nil hnil]
  | some p =>
    have hp : p ∈ c.ll := List.mem_of_getLast?_eq_some hb
    have hsum : (c.elems p).value.Len +
        ((c.ll.erase p).map (fun q => (c.elems q).value.Len)).sum =
        (c.ll.map (fun q => (c.elems q).value.Len)).sum :=
      List.sum_map_erase (fun q => (c.elems q).value.Len) hp
    have hval : valBytes (RemoveOldest c) =
        ((c.ll.erase p).map (fun q => (c.elems q).value.Len)).sum := by
      rw [valBytes_eq]
      unfold RemoveOldest
      rw [hb]
      rfl
    rw [RemoveOldest_usedBytes_exact h hb, hval, valBytes_eq]
    omega

theorem RemoveOldest_length_le (c : Cache) : (RemoveOldest c).ll.length ≤ c.ll.length - 1 := by
  cases hb : Back c.ll with
  | none =>
    have hnil : c.ll = [] := by simpa [Back] using hb
    rw [RemoveOldest_of_nil hnil, hnil]
    rfl
  | some p =>
    have hp : p ∈ c.ll := List.mem_of_getLast?_eq_some hb
    unfold RemoveOldest
    rw [hb]
    show (c.ll.erase p).length ≤ _
    rw [List.length_erase_of_mem hp]

/-- With sound accounting, the loop of Add returns within as many rounds as
the list has entries, provided the bytes that evictions do not take off
usedBytes fit the budget. -/
theorem evictLoop_returns : ∀ (fuel : Nat) (c : Cache), Sound c → c.ll.length ≤ fuel →
    c.usedBytes - valBytes c ≤ c.maxBytes → ∃ c1, evictLoop fuel c = some c1
  | 0, c, _, hlen, hfit => by
    have hnil : c.ll = [] := List.length_eq_zero.mp (Nat.le_zero.mp hlen)
    have hval : valBytes c = 0 := by rw [valBytes_eq, hnil]; rfl
    have hle : c.usedBytes ≤ c.maxBytes := by omega
    refine ⟨c, ?_⟩
    simp [evictLoop, overBudget, not_lt.mpr hle]
  | fuel + 1, c, hs, hlen, hfit => by
    unfold evictLoop
    split
    · apply evictLoop_returns fuel _ (Sound_RemoveOldest hs)
      · have := RemoveOldest_length_le c
        omega
      · rw [RemoveOldest_keyBytes hs, RemoveOldest_maxBytes]
        exact hfit
    · exact ⟨c, rfl⟩

theorem valBytes_addEntry_new {c : Cache} (h : Inv c) {k : String} (v : Value)
    (hnew : ∀ e ∈ entries c, e.key ≠ k) :
    valBytes (addEntry c k v) = v.Len + valBytes c := by
  unfold valBytes
  rw [entries_addEntry h]
  have hfil : (entries c).filter (fun e => e.key != k) = entries c := by
    rw [List.filter_eq_self]
    intro e he
    simpa using hnew e he
  rw [hfil]
  rfl

theorem addEntry_new_length {c : Cache} (h : Inv c) {k : String} (v : Value)
    (hnew : ∀ e ∈ entries c, e.key ≠ k) :
    (addEntry c k v).ll.length = c.ll.length + 1 := by
  unfold addEntry
  rw [lookup_eq_none_of_absent h hnew]
  rfl

theorem evictLoop_keyBytes : ∀ (fuel : Nat) {c c1 : Cache}, Sound c →
    evictLoop fuel c = some c1 →
    c1.usedBytes - valBytes c1 = c.usedBytes - valBytes c
  | 0, c, c1, _, he => by
    unfold evictLoop at he
    split at he
    · cases he
    · cases he; rfl
  | fuel + 1, c, c1, hs, he => by
    unfold evictLoop at he
    split at he
    · rw [evictLoop_keyBytes fuel (Sound_RemoveOldest hs) he, RemoveOldest_keyBytes hs]
    · cases he; rfl

/-! ## The sample caches are reachable -/

theorem nonNeg_S (s : String) : NonNeg (S s) := by
  show (0 : Int) ≤ (s.utf8ByteSize : Int)
  exact Int.natCast_nonneg _

theorem reach_afterKey1 : Reach NonNeg 10 false afterKey1 :=
  Reach.add 0 "key1" (S "1234") Reach.init (nonNeg_S _) rfl

theorem reach_afterK2 : Reach NonNeg 10 false afterK2 :=
  Reach.add 1 "k2" (S "v2") reach_afterKey1 (nonNeg_S _) rfl

theorem reach_twoKeys : Reach NonNeg 1024 false twoKeys :=
  Reach.add 0 "k2" (S "v2") (Reach.add 0 "k1" (S "v1") Reach.init (nonNeg_S _) rfl)
    (nonNeg_S _) rfl

theorem reach_recorded : Reach NonNeg 10 true recorded :=
  Reach.add 0 "key1" (S "1234") Reach.init (nonNeg_S _) rfl

theorem reach_small : Reach NonNeg 5 true small :=
  Reach.add 0 "a" (S "1") Reach.init (nonNeg_S _) rfl

theorem nonNeg_huge : NonNeg huge := by
  show (0 : Int) ≤ 9223372036854775807
  decide

theorem reachNoWrap_afterKey1 : ReachNoWrap 10 false afterKey1 :=
  ReachNoWrap.add 0 "key1" (S "1234") ReachNoWrap.init (nonNeg_S _) (by decide) rfl

theorem reachNoWrap_afterK2 : ReachNoWrap 10 false afterK2 :=
  ReachNoWrap.add 1 "k2" (S "v2") reachNoWrap_afterKey1 (nonNeg_S _) (by decide) rfl

theorem reachNoWrap_small : ReachNoWrap 5 true small :=
  ReachNoWrap.add 0 "a" (S "1") ReachNoWrap.init (nonNeg_S _) (by decide) rfl

/-! ## The claims -/

/-- C1 (the code at the failing input): after New(10), Add(key1, 1234),
Add(k2, v2) the cache holds only k2, whose cost is 4, yet usedBytes is 8:
RemoveOldest took off the 4 bytes of the evicted value and left the 4 bytes of
its key in the total. -/
theorem C1_usedBytes_after_eviction :
    Add 0 (New 10 false) "key1" (S "1234") = some afterKey1 ∧
    Add 1 afterKey1 "k2" (S "v2") = some afterK2 ∧
    entries afterK2 = [⟨"k2", S "v2"⟩] ∧ liveBytes afterK2 = 4 ∧
    afterK2.usedBytes = 8 := by
  refine ⟨rfl, rfl, ?_, ?_, ?_⟩ <;> decide

/-- C2 as stated fails at New(1), Add(ab, huge), RemoveOldest(), the Len of
huge being 2^63 - 1: line 70 wraps usedBytes around to -(2^63 - 1), the loop
is skipped and Add returns; line 53 then wraps usedBytes around to 2, above
maxBytes = 1. -/
theorem C2_counterexample :
    NonNeg huge ∧ Add 0 (New 1 false) "ab" huge = some wrapped ∧
    Reach NonNeg 1 false (RemoveOldest wrapped) ∧
    wrapped.usedBytes = -9223372036854775807 ∧
    (RemoveOldest wrapped).usedBytes = 2 ∧ (RemoveOldest wrapped).maxBytes = 1 ∧
    ¬ (RemoveOldest wrapped).usedBytes ≤ (RemoveOldest wrapped).maxBytes :=
  ⟨nonNeg_huge, rfl,
    Reach.removeOldest (Reach.add 0 "ab" huge Reach.init nonNeg_huge rfl),
    by decide, by decide, by decide, by decide⟩

/-- C2, amended: budget invariant. For a cache built by New with maxBytes > 0
and any sequence of Get, RemoveOldest and Add calls that returned, with values
of non-negative size and no Add making usedBytes wrap around, usedBytes is at
most maxBytes. -/
theorem C2_budget {m : Int} {cb : Bool} {c : Cache} (hm : 0 < m)
    (h : ReachNoWrap m cb c) : c.usedBytes ≤ c.maxBytes := by
  induction h with
  | init => exact le_of_lt hm
  | get key _ ih => rw [Get_usedBytes, Get_maxBytes]; exact ih
  | removeOldest hc ih =>
    rw [RemoveOldest_maxBytes]
    exact le_trans (RemoveOldest_usedBytes_le (Sound_of_ReachNoWrap hc)) ih
  | add fuel key value hc hv _ hadd _ =>
    have hmax : _ = m :=
      Reach_maxBytes (Reach.add fuel key value (reach_of_ReachNoWrap hc) hv hadd)
    exact le_of_not_overBudget (evictLoop_within fuel hadd) (by rw [hmax]; exact hm)

/-- C2, amended, at scenario 2, whose second Add evicts. -/
theorem C2_budget_witness :
    (0 : Int) < 10 ∧ ReachNoWrap 10 false afterK2 ∧
    afterK2.usedBytes ≤ afterK2.maxBytes :=
  ⟨by decide, reachNoWrap_afterK2, C2_budget (by decide) reachNoWrap_afterK2⟩

/-- C3 (the code at the failing input): on a fresh cache of budget 3,
Add(key1, v) never returns. The insertion makes usedBytes 5; the one eviction
empties the list and leaves usedBytes at 4, still over the budget, and from
then on RemoveOldest changes nothing: the loop runs out of every fuel. -/
theorem C3_add_never_returns :
    NonNeg (S "v") ∧ oversized.usedBytes = 5 ∧
    entries (RemoveOldest oversized) = [] ∧ (RemoveOldest oversized).usedBytes = 4 ∧
    ∀ fuel, Add fuel (New 3 false) "key1" (S "v") = none := by
  refine ⟨nonNeg_S _, by decide, by decide, by decide, ?_⟩
  intro fuel
  have hstuck : ∀ n, evictLoop n (RemoveOldest oversized) = none :=
    evictLoop_stuck (by decide) (by decide)
  cases fuel with
  | zero => rfl
  | succ n => exact hstuck n

/-- C4 (the code at the failing input): inserting key1 with the value 1234
into a fresh cache adds 8 bytes, the cost of the entry; RemoveOldest of that
entry takes off 4, the Len of the value alone. -/
theorem C4_removeOldest_value_bytes_only :
    (New 10 false).usedBytes = 0 ∧ afterKey1.usedBytes = 8 ∧
    entries afterKey1 = [⟨"key1", S "1234"⟩] ∧ cost ⟨"key1", S "1234"⟩ = 8 ∧
    entries (RemoveOldest afterKey1) = [] ∧ (RemoveOldest afterKey1).usedBytes = 4 := by
  refine ⟨?_, ?_, ?_, ?_, ?_, ?_⟩ <;> decide

/-- C5: round trip. If Add(k, v) triggers no eviction (maxBytes is 0, or
usedBytes after the insertion or update is at most maxBytes), Add returns and
the Get(k) that follows returns (v, true). Holds for every cache. -/
theorem C5_round_trip (fuel : Nat) (c : Cache) (k : String) (v : Value)
    (hno : c.maxBytes = 0 ∨ (addEntry c k v).usedBytes ≤ c.maxBytes) :
    Add fuel c k v = some (addEntry c k v) ∧
    (Get (addEntry c k v) k).1 = some v ∧ (Get (addEntry c k v) k).2.1 = true := by
  have hover : overBudget (addEntry c k v) = false := by
    unfold overBudget
    rw [addEntry_maxBytes]
    rcases hno with h0 | hle
    · simp [h0]
    · simp [not_lt.mpr hle]
  constructor
  · unfold Add
    cases fuel <;> simp [evictLoop, hover]
  · unfold addEntry Get
    cases hl : c.cache.lookup k with
    | some node => simp [hl]
    | none => simp [AList.lookup_insert]

/-- C5 at an update of the least recent of two keys. -/
theorem C5_round_trip_witness :
    (twoKeys.maxBytes = 0 ∨ (addEntry twoKeys "k1" (S "zz")).usedBytes ≤ twoKeys.maxBytes) ∧
    Add 0 twoKeys "k1" (S "zz") = some (addEntry twoKeys "k1" (S "zz")) ∧
    (Get (addEntry twoKeys "k1" (S "zz")) "k1").1 = some (S "zz") ∧
    (Get (addEntry twoKeys "k1" (S "zz")) "k1").2.1 = true :=
  ⟨Or.inr (by decide), C5_round_trip 0 twoKeys "k1" (S "zz") (Or.inr (by decide))⟩

/-- C6: Get hit. On a reachable cache whose recency list holds key k with
value v, Get(k) returns (v, true); the list afterwards is the entry of k
followed by the other entries in their previous order; usedBytes, Len, the
value stored for every key, the index and the record of callback calls are
unchanged. -/
theorem C6_get_hit {P : Value → Prop} {m : Int} {cb : Bool} {c : Cache}
    (hr : Reach P m cb c) (k : String) (v : Value) (hs : stored c k = some v) :
    (Get c k).1 = some v ∧ (Get c k).2.1 = true ∧
    entries (Get c k).2.2 = ⟨k, v⟩ :: (entries c).filter (fun e => e.key != k) ∧
    (Get c k).2.2.usedBytes = c.usedBytes ∧ Len (Get c k).2.2 = Len c ∧
    (∀ k1, stored (Get c k).2.2 k1 = stored c k1) ∧
    (Get c k).2.2.cache = c.cache ∧ (Get c k).2.2.calls = c.calls := by
  have hinv := Inv_of_Reach hr
  have hinv1 := Inv_Get hinv k
  have hstored : ∀ k1, stored (Get c k).2.2 k1 = stored c k1 := by
    intro k1
    rw [stored_eq_lookup hinv1, stored_eq_lookup hinv]
    unfold Get
    cases c.cache.lookup k <;> rfl
  rw [stored_eq_lookup hinv] at hs
  cases hl : c.cache.lookup k with
  | none => rw [hl] at hs; cases hs
  | some p =>
    rw [hl] at hs
    have hv : (c.elems p).value = v := by simpa using hs
    obtain ⟨hp, hkey⟩ := (hinv.index k p).mp hl
    have hget : Get c k = (some (c.elems p).value, true, { c with ll := MoveToFront c.ll p }) := by
      unfold Get
      rw [hl]
    refine ⟨?_, ?_, ?_, Get_usedBytes c k, ?_, hstored, ?_, ?_⟩
    · rw [hget, hv]
    · rw [hget]
    · rw [hget, ← erase_map_eq_filter hinv hl]
      show (MoveToFront c.ll p).map c.elems = _
      unfold MoveToFront
      rw [if_pos hp, List.map_cons, ← hkey, ← hv]
    · rw [hget]
      exact MoveToFront_length c.ll p
    · rw [hget]
    · rw [hget]

/-- C6 at scenario 1: Get(k1) brings k1 from the back to the front. -/
theorem C6_get_hit_witness :
    stored twoKeys "k1" = some (S "v1") ∧
    (Get twoKeys "k1").1 = some (S "v1") ∧ (Get twoKeys "k1").2.1 = true ∧
    entries (Get twoKeys "k1").2.2 =
      ⟨"k1", S "v1"⟩ :: (entries twoKeys).filter (fun e => e.key != "k1") ∧
    (Get twoKeys "k1").2.2.usedBytes = twoKeys.usedBytes ∧
    Len (Get twoKeys "k1").2.2 = Len twoKeys ∧
    (∀ k1, stored (Get twoKeys "k1").2.2 k1 = stored twoKeys k1) ∧
    (Get twoKeys "k1").2.2.cache = twoKeys.cache ∧
    (Get twoKeys "k1").2.2.calls = twoKeys.calls :=
  ⟨by decide, C6_get_hit reach_twoKeys "k1" (S "v1") (by decide)⟩

/-- C7: Get miss. On a reachable cache (the empty one included) whose recency
list holds no entry with key k, Get(k) returns the nil value and false, and the
cache afterwards is the cache before, in every field. -/
theorem C7_get_miss {P : Value → Prop} {m : Int} {cb : Bool} {c : Cache}
    (hr : Reach P m cb c) (k : String) (hk : ∀ e ∈ entries c, e.key ≠ k) :
    Get c k = (none, false, c) := by
  unfold Get
  rw [lookup_eq_none_of_absent (Inv_of_Reach hr) hk]

/-- C7 at scenario 2, asking for the evicted key. -/
theorem C7_get_miss_witness :
    (∀ e ∈ entries afterK2, e.key ≠ "key1") ∧ Get afterK2 "key1" = (none, false, afterK2) :=
  ⟨by decide, C7_get_miss reach_afterK2 "key1" (by decide)⟩

/-- C8: RemoveOldest on a reachable cache whose recency list ends with the
entry `last`: the list afterwards is the old list without its last element,
Len is one less, the key of `last` is no longer in the index and a Get of it
finds nothing, and every other key is still retrieved with its value. -/
theorem C8_remove_oldest {P : Value → Prop} {m : Int} {cb : Bool} {c : Cache}
    (hr : Reach P m cb c) (last : entry) (hlast : (entries c).getLast? = some last) :
    entries (RemoveOldest c) = (entries c).dropLast ∧
    Len (RemoveOldest c) + 1 = Len c ∧
    last.key ∉ (RemoveOldest c).cache.keys ∧
    Get (RemoveOldest c) last.key = (none, false, RemoveOldest c) ∧
    (∀ k v, k ≠ last.key → stored c k = some v →
      (Get (RemoveOldest c) k).1 = some v ∧ (Get (RemoveOldest c) k).2.1 = true) := by
  have hinv := Inv_of_Reach hr
  have hent := entries_RemoveOldest hinv
  unfold entries at hlast
  rw [List.getLast?_map] at hlast
  cases hb : c.ll.getLast? with
  | none => rw [hb] at hlast; cases hlast
  | some p =>
    rw [hb] at hlast
    have hlast1 : c.elems p = last := by simpa using hlast
    have hp : p ∈ c.ll := List.mem_of_getLast?_eq_some hb
    have hrem : RemoveOldest c = { c with
        ll := Remove c.ll p
        cache := c.cache.erase (c.elems p).key
        usedBytes := sub64 c.usedBytes (c.elems p).value.Len
        calls := if c.OnEvicted then c.calls ++ [((c.elems p).key, (c.elems p).value)]
          else c.calls } := by
      unfold RemoveOldest Back
      rw [hb]
    have hlook : (RemoveOldest c).cache.lookup last.key = none := by
      rw [hrem, ← hlast1]
      exact AList.lookup_erase _ _
    refine ⟨hent, ?_, ?_, ?_, ?_⟩
    · rw [hrem]
      show (c.ll.erase p).length + 1 = c.ll.length
      rw [List.length_erase_of_mem hp]
      have : 0 < c.ll.length := List.length_pos_of_mem hp
      omega
    · rw [← AList.mem_keys, ← AList.lookup_eq_none]
      exact hlook
    · unfold Get
      rw [hlook]
    · intro k v hk hs
      rw [stored_eq_lookup hinv] at hs
      have hlk : (RemoveOldest c).cache.lookup k = c.cache.lookup k := by
        rw [hrem]
        exact AList.lookup_erase_ne (hlast1 ▸ hk)
      cases hl : c.cache.lookup k with
      | none => rw [hl] at hs; cases hs
      | some q =>
        rw [hl] at hs
        have hv : (c.elems q).value = v := by simpa using hs
        unfold Get
        rw [hlk, hl]
        have helems : (RemoveOldest c).elems = c.elems := by rw [hrem]
        simp [helems, hv]

/-- C8 at scenario 1 before its Get: k1 is at the back and is removed. -/
theorem C8_remove_oldest_witness :
    (entries twoKeys).getLast? = some ⟨"k1", S "v1"⟩ ∧
    entries (RemoveOldest twoKeys) = (entries twoKeys).dropLast ∧
    Len (RemoveOldest twoKeys) + 1 = Len twoKeys ∧
    "k1" ∉ (RemoveOldest twoKeys).cache.keys ∧
    Get (RemoveOldest twoKeys) "k1" = (none, false, RemoveOldest twoKeys) ∧
    (∀ k v, k ≠ "k1" → stored twoKeys k = some v →
      (Get (RemoveOldest twoKeys) k).1 = some v ∧ (Get (RemoveOldest twoKeys) k).2.1 = true) :=
  ⟨by decide, C8_remove_oldest reach_twoKeys ⟨"k1", S "v1"⟩ (by decide)⟩

/-- C9: LRU order. After any sequence of Add, Get and RemoveOldest calls from
New that returned, the recency list is ordered front to back by strictly
decreasing number of the latest call that touched each live key (an Add of the
key, or a Get that found it); so the back entry, the one RemoveOldest removes,
is the live key touched least recently. -/
theorem C9_lru_order (fuel : Nat) (maxBytes : Int) (cb : Bool) (ops : List Op) (s : Timed)
    (hrun : Timed.run fuel (Timed.start maxBytes cb) ops = some s) :
    ((entries s.cache).map (fun e => s.lastTouch e.key)).Pairwise (· > ·) ∧
    ∀ last, (entries s.cache).getLast? = some last →
      entries (RemoveOldest s.cache) = (entries s.cache).dropLast ∧
      last.key ∉ ((entries (RemoveOldest s.cache)).map entry.key) ∧
      ∀ e ∈ (entries s.cache).dropLast, s.lastTouch last.key < s.lastTouch e.key := by
  have hstart : Ordered (entries (Timed.start maxBytes cb).cache)
      (Timed.start maxBytes cb).lastTouch (Timed.start maxBytes cb).clock :=
    ⟨List.Pairwise.nil, fun e he => by cases he⟩
  obtain ⟨hinv, hord⟩ := Timed.run_ordered fuel ops (Inv_New maxBytes cb) hstart hrun
  refine ⟨hord.1, ?_⟩
  intro last hlast
  have hsplit := List.dropLast_append_getLast? last hlast
  have hpw := hord.1
  rw [← hsplit, List.map_append, List.pairwise_append] at hpw
  have hlt : ∀ e ∈ (entries s.cache).dropLast, s.lastTouch last.key < s.lastTouch e.key := by
    intro e he
    exact hpw.2.2 _ (List.mem_map_of_mem _ he) _ (by simp)
  refine ⟨entries_RemoveOldest hinv, ?_, hlt⟩
  rw [entries_RemoveOldest hinv]
  intro hmem
  obtain ⟨e, he, hkey⟩ := List.mem_map.mp hmem
  have := hlt e he
  rw [hkey] at this
  exact lt_irrefl _ this

/-- C9 at the calls of scenario 6 with budget 7: the list ends as d, a, c,
touched by calls 5, 4 and 3. -/
theorem C9_lru_order_witness :
    Timed.run 1 (Timed.start 7 false) interleaved = some interleavedEnd ∧
    (entries interleavedEnd.cache).map (fun e => (e.key, interleavedEnd.lastTouch e.key))
      = [("d", 5), ("a", 4), ("c", 3)] ∧
    ((entries interleavedEnd.cache).map
      (fun e => interleavedEnd.lastTouch e.key)).Pairwise (· > ·) ∧
    ∀ last, (entries interleavedEnd.cache).getLast? = some last →
      entries (RemoveOldest interleavedEnd.cache) = (entries interleavedEnd.cache).dropLast ∧
      last.key ∉ ((entries (RemoveOldest interleavedEnd.cache)).map entry.key) ∧
      ∀ e ∈ (entries interleavedEnd.cache).dropLast,
        interleavedEnd.lastTouch last.key < interleavedEnd.lastTouch e.key :=
  ⟨rfl, by decide, C9_lru_order 1 7 false interleaved interleavedEnd rfl⟩

/-- C10: index and list stay in step. On every reachable cache the number of
keys in the index equals the length of the recency list, which is Len; every
key of the index maps to a listed element whose entry holds that key; and no
two listed entries hold the same key. -/
theorem C10_index_list_sync {P : Value → Prop} {m : Int} {cb : Bool} {c : Cache}
    (hr : Reach P m cb c) :
    c.cache.keys.length = c.ll.length ∧ c.ll.length = Len c ∧
    (∀ K p, c.cache.lookup K = some p → p ∈ c.ll ∧ (c.elems p).key = K) ∧
    ((entries c).map entry.key).Nodup := by
  have hinv := Inv_of_Reach hr
  have hnd : ((entries c).map entry.key).Nodup := by
    unfold entries
    rw [List.map_map]
    exact List.Nodup.map_on (fun p hp q hq hk => key_unique hinv hp hq hk) hinv.nodup
  refine ⟨?_, rfl, fun K p hl => (hinv.index K p).mp hl, hnd⟩
  have hperm : c.cache.keys.Perm ((entries c).map entry.key) := by
    rw [List.perm_ext_iff_of_nodup c.cache.keys_nodup hnd]
    intro k
    rw [← AList.mem_keys, ← AList.lookup_isSome]
    unfold entries
    rw [List.map_map, List.mem_map]
    constructor
    · intro hsome
      obtain ⟨p, hl⟩ := Option.isSome_iff_exists.mp hsome
      obtain ⟨hp, hkey⟩ := (hinv.index k p).mp hl
      exact ⟨p, hp, hkey⟩
    · rintro ⟨p, hp, hkey⟩
      rw [(hinv.index k p).mpr ⟨hp, hkey⟩]
      rfl
  rw [hperm.length_eq]
  simp [entries]

/-- C10 at scenario 2, after an eviction. -/
theorem C10_index_list_sync_witness :
    Reach NonNeg 10 false afterK2 ∧
    afterK2.cache.keys.length = afterK2.ll.length ∧ afterK2.ll.length = Len afterK2 ∧
    (∀ K p, afterK2.cache.lookup K = some p → p ∈ afterK2.ll ∧ (afterK2.elems p).key = K) ∧
    ((entries afterK2).map entry.key).Nodup :=
  ⟨reach_afterK2, C10_index_list_sync reach_afterK2⟩

/-- C11: callback fidelity. On a reachable cache with a callback registered,
RemoveOldest on a non-empty list calls the callback once more, with the key of
the back entry and the value stored for that key, and removes that entry; and
when Add returns, the calls it made are exactly the entries it evicted from
the list it had built, each once, back entry first. -/
theorem C11_callback_fidelity {P : Value → Prop} {m : Int} {cb : Bool} {c : Cache}
    (hr : Reach P m cb c) (hcb : c.OnEvicted = true) :
    (∀ last, (entries c).getLast? = some last →
      (RemoveOldest c).calls = c.calls ++ [(last.key, last.value)] ∧
      entries (RemoveOldest c) = (entries c).dropLast ∧
      stored c last.key = some last.value) ∧
    (∀ fuel k v c1, Add fuel c k v = some c1 →
      ∃ ev, ⟨k, v⟩ :: (entries c).filter (fun e => e.key != k) = entries c1 ++ ev ∧
        c1.calls = c.calls ++ evictedCalls ev) := by
  have hinv := Inv_of_Reach hr
  constructor
  · intro last hlast
    unfold entries at hlast
    rw [List.getLast?_map] at hlast
    cases hb : c.ll.getLast? with
    | none => rw [hb] at hlast; cases hlast
    | some p =>
      rw [hb] at hlast
      have hlast1 : c.elems p = last := by simpa using hlast
      have hp : p ∈ c.ll := List.mem_of_getLast?_eq_some hb
      refine ⟨?_, entries_RemoveOldest hinv, ?_⟩
      · rw [RemoveOldest_calls hb, hcb, ← hlast1]
        rfl
      · rw [stored_eq_lookup hinv, ← hlast1, lookup_of_mem hinv hp]
        rfl
  · intro fuel k v c1 hadd
    obtain ⟨ev, hent, hcalls⟩ := evictLoop_calls fuel (Inv_addEntry hinv k v) hadd
    rw [entries_addEntry hinv] at hent
    rw [addEntry_OnEvicted, hcb, addEntry_calls] at hcalls
    exact ⟨ev, hent, by simpa using hcalls⟩

/-- C11 at scenario 3: the second Add evicts key1 and calls the callback once. -/
theorem C11_callback_fidelity_witness :
    recorded.OnEvicted = true ∧
    Add 1 recorded "k2" (S "v2") = some (RemoveOldest (addEntry recorded "k2" (S "v2"))) ∧
    (RemoveOldest (addEntry recorded "k2" (S "v2"))).calls = [("key1", S "1234")] ∧
    ((∀ last, (entries recorded).getLast? = some last →
      (RemoveOldest recorded).calls = recorded.calls ++ [(last.key, last.value)] ∧
      entries (RemoveOldest recorded) = (entries recorded).dropLast ∧
      stored recorded last.key = some last.value) ∧
    (∀ fuel k v c1, Add fuel recorded k v = some c1 →
      ∃ ev, ⟨k, v⟩ :: (entries recorded).filter (fun e => e.key != k) = entries c1 ++ ev ∧
        c1.calls = recorded.calls ++ evictedCalls ev)) :=
  ⟨rfl, rfl, by decide, C11_callback_fidelity reach_recorded rfl⟩

/-- C14: unbounded mode. From New(0, cb), any sequence of Add and Get calls
returns (with any fuel); no callback call is made; Len is the number of
distinct keys added; every added key is stored and retrieved with the value of
its latest Add; and a further Add returns at once, keeping every entry. -/
theorem C14_unbounded_mode (cb : Bool) (fuel : Nat) (ops : List Op)
    (hops : addsAndGets ops = true) :
    ∃ c, runOps fuel (New 0 cb) ops = some c ∧ c.calls = [] ∧
      Len c = (addedKeys ops).dedup.length ∧
      (∀ k v, lastAdded ops k = some v →
        stored c k = some v ∧ (Get c k).1 = some v ∧ (Get c k).2.1 = true) ∧
      (∀ k v, Add fuel c k v = some (addEntry c k v) ∧
        (addEntry c k v).calls = c.calls ∧
        entries (addEntry c k v) = ⟨k, v⟩ :: (entries c).filter (fun e => e.key != k)) := by
  obtain ⟨c, hrun, hinv, hmax, hcalls, hst⟩ := runOps_unbounded cb fuel ops hops
  refine ⟨c, hrun, hcalls, ?_, ?_, ?_⟩
  · have hperm : ((entries c).map entry.key).Perm (addedKeys ops).dedup := by
      rw [List.perm_ext_iff_of_nodup (entry_keys_nodup hinv) (List.nodup_dedup _)]
      intro k
      rw [List.mem_dedup, ← stored_isSome, ← lastAdded_isSome, hst]
    have := hperm.length_eq
    simpa [entries, Len] using this
  · intro k v hl
    have hs : stored c k = some v := by rw [hst, hl]
    exact ⟨hs, Get_of_stored hinv hs⟩
  · intro k v
    exact ⟨Add_of_not_overBudget (not_overBudget_of k v (Or.inl hmax)) fuel,
      addEntry_calls c k v, entries_addEntry hinv k v⟩

/-- C14 at a run that adds a, b, and a again: two distinct keys. -/
theorem C14_unbounded_mode_witness :
    addsAndGets unboundedCalls = true ∧
    (addedKeys unboundedCalls).dedup.length = 2 ∧
    lastAdded unboundedCalls "a" = some (S "3") ∧
    ∃ c, runOps 0 (New 0 true) unboundedCalls = some c ∧ c.calls = [] ∧
      Len c = (addedKeys unboundedCalls).dedup.length ∧
      (∀ k v, lastAdded unboundedCalls k = some v →
        stored c k = some v ∧ (Get c k).1 = some v ∧ (Get c k).2.1 = true) ∧
      (∀ k v, Add 0 c k v = some (addEntry c k v) ∧
        (addEntry c k v).calls = c.calls ∧
        entries (addEntry c k v) = ⟨k, v⟩ :: (entries c).filter (fun e => e.key != k)) :=
  ⟨rfl, by decide, by decide, C14_unbounded_mode true 0 unboundedCalls rfl⟩

/-- C15 as stated fails at New(10), Add(a, huge), the Len of huge being
2^63 - 1: the cost 2^63 is above maxBytes, but line 70 wraps usedBytes around
to -2^63, the loop is skipped and Add returns with the entry in the list. -/
theorem C15_counterexample :
    Reach NonNeg 10 false (New 10 false) ∧ (0 : Int) < (New 10 false).maxBytes ∧
    (∀ e ∈ entries (New 10 false), e.key ≠ "a") ∧
    (New 10 false).maxBytes < (("a".utf8ByteSize : Int) + huge.Len) ∧
    Add 0 (New 10 false) "a" huge = some hugeCached ∧
    hugeCached.usedBytes = -9223372036854775808 ∧
    entries hugeCached = [⟨"a", huge⟩] ∧ Len hugeCached = 1 ∧
    (Get hugeCached "a").1 = some huge ∧ (Get hugeCached "a").2.1 = true :=
  ⟨Reach.init, by decide, by decide, by decide, rfl, by decide, by decide, by decide,
    by decide, by decide⟩

/-- C15, amended: oversized entry. On a cache with maxBytes > 0 reached with
values of non-negative size and without wrap-around, for a key k not in the
list and a value v of non-negative size with byte size of k plus v.Len above
maxBytes, usedBytes plus that cost being an `int64`: when Add(k, v) returns,
the list is empty, Len is 0, Get(k) finds nothing, and with a callback
registered the calls made are every earlier entry and then the new entry, back
entry first. Add does return, within Len + 1 evictions, exactly when usedBytes less the
live value sizes, plus the byte size of k, is at most maxBytes. -/
theorem C15_oversized_self_evicts {m : Int} {cb : Bool} {c : Cache}
    (hr : ReachNoWrap m cb c) (hm : 0 < c.maxBytes) (k : String) (v : Value)
    (hv : NonNeg v) (hnew : ∀ e ∈ entries c, e.key ≠ k)
    (hbig : c.maxBytes < (k.utf8ByteSize : Int) + v.Len)
    (hfit : fits64 (c.usedBytes + ((k.utf8ByteSize : Int) + v.Len))) :
    (∀ fuel c1, Add fuel c k v = some c1 →
      entries c1 = [] ∧ Len c1 = 0 ∧ Get c1 k = (none, false, c1) ∧
      (c.OnEvicted = true → c1.calls = c.calls ++ evictedCalls (⟨k, v⟩ :: entries c))) ∧
    (c.usedBytes - valBytes c + (k.utf8ByteSize : Int) ≤ c.maxBytes →
      ∃ c1, Add (Len c + 1) c k v = some c1) ∧
    ((∃ fuel c1, Add fuel c k v = some c1) →
      c.usedBytes - valBytes c + (k.utf8ByteSize : Int) ≤ c.maxBytes) := by
  have hinv := Inv_of_Reach (reach_of_ReachNoWrap hr)
  have hinv1 := Inv_addEntry hinv k v
  have hs := Sound_of_ReachNoWrap hr
  have hl := lookup_eq_none_of_absent hinv hnew
  have hadded := addedBytes_new v hl
  have hs1 : Sound (addEntry c k v) := Sound_addEntry hinv hs k hv (by rw [hadded]; exact hfit)
  have hused : (addEntry c k v).usedBytes = c.usedBytes + ((k.utf8ByteSize : Int) + v.Len) := by
    rw [addEntry_usedBytes, hadded, wrap64_of_fits hfit]
  have hfil : (entries c).filter (fun e => e.key != k) = entries c := by
    rw [List.filter_eq_self]
    intro e he
    simpa using hnew e he
  have hempty : ∀ fuel c1, Add fuel c k v = some c1 → entries c1 = [] := by
    intro fuel c1 hadd
    have hpre := entries_evictLoop fuel hinv1 hadd
    rw [entries_addEntry hinv, hfil] at hpre
    have hlive := (Sound_evictLoop fuel hs1 hadd).live
    have hmax : c1.maxBytes = c.maxBytes := by
      rw [evictLoop_maxBytes fuel hadd, addEntry_maxBytes]
    have hwithin := le_of_not_overBudget (evictLoop_within fuel hadd) (by rw [hmax]; exact hm)
    rcases List.prefix_cons_iff.mp hpre with hnil | ⟨t, ht, htpre⟩
    · exact hnil
    · exfalso
      have hrest : 0 ≤ (t.map cost).sum := by
        apply List.sum_nonneg
        intro x hx
        obtain ⟨e, he, rfl⟩ := List.mem_map.mp hx
        exact cost_nonneg_of_mem hs.vals (htpre.subset he)
      have hsum : liveBytes c1 = cost ⟨k, v⟩ + (t.map cost).sum := by
        unfold liveBytes
        rw [ht]
        rfl
      have hcost : cost ⟨k, v⟩ = (k.utf8ByteSize : Int) + v.Len := rfl
      omega
  refine ⟨?_, ?_, ?_⟩
  · intro fuel c1 hadd
    have hnil := hempty fuel c1 hadd
    refine ⟨hnil, ?_, ?_, ?_⟩
    · have : (entries c1).length = 0 := by rw [hnil]; rfl
      simpa [entries, Len] using this
    · unfold Get
      rw [lookup_eq_none_of_absent (Inv_evictLoop fuel hinv1 hadd)
        (by rw [hnil]; intro e he; cases he)]
    · intro hcb
      obtain ⟨ev, hent, hcalls⟩ := evictLoop_calls fuel hinv1 hadd
      rw [entries_addEntry hinv, hfil, hnil, List.nil_append] at hent
      rw [addEntry_OnEvicted, hcb, addEntry_calls, ← hent] at hcalls
      simpa using hcalls
  · intro hfits
    apply evictLoop_returns _ _ hs1
    · rw [addEntry_new_length hinv v hnew]
      rfl
    · rw [hused, valBytes_addEntry_new hinv v hnew, addEntry_maxBytes]
      omega
  · rintro ⟨fuel, c1, hadd⟩
    have hnil := hempty fuel c1 hadd
    have hkey := evictLoop_keyBytes fuel hs1 hadd
    rw [hused, valBytes_addEntry_new hinv v hnew] at hkey
    have hval : valBytes c1 = 0 := by
      unfold valBytes
      rw [hnil]
      rfl
    have hmax : c1.maxBytes = c.maxBytes := by
      rw [evictLoop_maxBytes fuel hadd, addEntry_maxBytes]
    have hwithin := le_of_not_overBudget (evictLoop_within fuel hadd) (by rw [hmax]; exact hm)
    omega

/-- C15, amended, at a cache of budget 5 holding a: Add(bbb, ccc), of cost 6,
returns after evicting a and then bbb. -/
theorem C15_oversized_self_evicts_witness :
    ReachNoWrap 5 true small ∧ (0 : Int) < small.maxBytes ∧ NonNeg (S "ccc") ∧
    (∀ e ∈ entries small, e.key ≠ "bbb") ∧
    small.maxBytes < (("bbb".utf8ByteSize : Int) + (S "ccc").Len) ∧
    fits64 (small.usedBytes + (("bbb".utf8ByteSize : Int) + (S "ccc").Len)) ∧
    Add 2 small "bbb" (S "ccc") = some smallEmptied ∧
    smallEmptied.calls = [("a", S "1"), ("bbb", S "ccc")] ∧
    ((∀ fuel c1, Add fuel small "bbb" (S "ccc") = some c1 →
      entries c1 = [] ∧ Len c1 = 0 ∧ Get c1 "bbb" = (none, false, c1) ∧
      (small.OnEvicted = true →
        c1.calls = small.calls ++ evictedCalls (⟨"bbb", S "ccc"⟩ :: entries small))) ∧
    (small.usedBytes - valBytes small + ("bbb".utf8ByteSize : Int) ≤ small.maxBytes →
      ∃ c1, Add (Len small + 1) small "bbb" (S "ccc") = some c1) ∧
    ((∃ fuel c1, Add fuel small "bbb" (S "ccc") = some c1) →
      small.usedBytes - valBytes small + ("bbb".utf8ByteSize : Int) ≤ small.maxBytes)) :=
  ⟨reachNoWrap_small, by decide, nonNeg_S _, by decide, by decide, by decide, rfl, by decide,
    C15_oversized_self_evicts reachNoWrap_small (by decide) "bbb" (S "ccc") (nonNeg_S _)
      (by decide) (by decide) (by decide)⟩

/-- C16 as stated fails at scenario 5: New(3), Add(aa, bb) returns with an empty
list, so the entry of aa is not at its front. -/
theorem C16_counterexample :
    Reach NonNeg 3 false (New 3 false) ∧
    Add 1 (New 3 false) "aa" (S "bb") = some selfEvicted ∧
    entries selfEvicted = [] ∧
    (entries selfEvicted).head? ≠ some ⟨"aa", S "bb"⟩ :=
  ⟨Reach.init, rfl, by decide, by decide⟩

/-- C16, amended: when Add(k, v) returns on a reachable cache, the recency list
is either empty or has the entry of k, holding v, at its front. -/
theorem C16_front_after_add {P : Value → Prop} {m : Int} {cb : Bool} {c : Cache}
    (hr : Reach P m cb c) (k : String) (v : Value) (fuel : Nat) (c1 : Cache)
    (hadd : Add fuel c k v = some c1) :
    entries c1 = [] ∨ (entries c1).head? = some ⟨k, v⟩ := by
  have hinv := Inv_of_Reach hr
  have hpre := entries_evictLoop fuel (Inv_addEntry hinv k v) hadd
  rw [entries_addEntry hinv, List.prefix_cons_iff] at hpre
  rcases hpre with hnil | ⟨t, ht, _⟩
  · exact Or.inl hnil
  · right
    rw [ht]
    rfl

/-- C16, amended, at scenario 2: after Add(k2, v2) evicted key1, k2 is at the
front. -/
theorem C16_front_after_add_witness :
    Add 1 afterKey1 "k2" (S "v2") = some afterK2 ∧
    (entries afterK2 = [] ∨ (entries afterK2).head? = some ⟨"k2", S "v2"⟩) ∧
    (entries afterK2).head? = some ⟨"k2", S "v2"⟩ :=
  ⟨rfl, C16_front_after_add reach_afterKey1 "k2" (S "v2") 1 afterK2 rfl, by decide⟩

/-- C17: RemoveOldest on an empty cache changes nothing: the cache afterwards
is the cache before, Len stays 0 and no callback call is made. -/
theorem C17_removeOldest_empty (c : Cache) (h : Len c = 0) :
    RemoveOldest c = c ∧ Len (RemoveOldest c) = 0 ∧ (RemoveOldest c).calls = c.calls := by
  have hnil : c.ll = [] := List.length_eq_zero.mp h
  rw [RemoveOldest_of_nil hnil]
  exact ⟨rfl, h, rfl⟩

/-- C17 at a fresh cache with a callback. -/
theorem C17_removeOldest_empty_witness :
    Len (New 10 true) = 0 ∧
    (RemoveOldest (New 10 true) = New 10 true ∧ Len (RemoveOldest (New 10 true)) = 0 ∧
      (RemoveOldest (New 10 true)).calls = (New 10 true).calls) :=
  ⟨rfl, C17_removeOldest_empty (New 10 true) rfl⟩

/-- C18 as stated fails at maxBytes = -1: New returns an empty cache with that
budget, the loop condition of Add holds right after the insertion, and Add
never returns. -/
theorem C18_counterexample :
    (-1 : Int) < 0 ∧ (New (-1) false).maxBytes = -1 ∧ entries (New (-1) false) = [] ∧
    overBudget (addEntry (New (-1) false) "a" (S "b")) = true ∧
    ∀ fuel, Add fuel (New (-1) false) "a" (S "b") = none := by
  refine ⟨by decide, rfl, rfl, by decide, ?_⟩
  intro fuel
  have hstuck : ∀ n, evictLoop n (RemoveOldest (addEntry (New (-1) false) "a" (S "b"))) = none :=
    evictLoop_stuck (by decide) (by decide)
  cases fuel with
  | zero => rfl
  | succ n => exact hstuck n

/-- C18, amended: for every maxBytes < 0, New returns an empty cache with that
budget and usedBytes 0, and an Add of a value of non-negative size on it, the
byte size of the key plus the Len of the value being an `int64`, enters the
eviction loop. -/
theorem C18_negative_budget_accepted (maxBytes : Int) (cb : Bool) (hneg : maxBytes < 0)
    (k : String) (v : Value) (hv : NonNeg v)
    (hfit : fits64 ((k.utf8ByteSize : Int) + v.Len)) :
    (New maxBytes cb).maxBytes = maxBytes ∧ (New maxBytes cb).usedBytes = 0 ∧
    entries (New maxBytes cb) = [] ∧ Len (New maxBytes cb) = 0 ∧
    overBudget (addEntry (New maxBytes cb) k v) = true := by
  refine ⟨rfl, rfl, rfl, rfl, ?_⟩
  have hk : (0 : Int) ≤ (k.utf8ByteSize : Int) := Int.natCast_nonneg _
  have hv1 : (0 : Int) ≤ v.Len := hv
  have hne : maxBytes ≠ 0 := ne_of_lt hneg
  have hused : (addEntry (New maxBytes cb) k v).usedBytes = (k.utf8ByteSize : Int) + v.Len := by
    rw [addEntry_usedBytes, addedBytes_new v (AList.lookup_empty k)]
    show wrap64 (0 + ((k.utf8ByteSize : Int) + v.Len)) = _
    rw [Int.zero_add, wrap64_of_fits hfit]
  have hlt : maxBytes < (addEntry (New maxBytes cb) k v).usedBytes := by
    rw [hused]
    omega
  unfold overBudget
  rw [addEntry_maxBytes]
  simp [New, hne]
  exact hlt

/-- C18, amended, at maxBytes = -7. -/
theorem C18_negative_budget_accepted_witness :
    (-7 : Int) < 0 ∧ NonNeg (S "v1") ∧ fits64 (("k1".utf8ByteSize : Int) + (S "v1").Len) ∧
    ((New (-7) true).maxBytes = -7 ∧ (New (-7) true).usedBytes = 0 ∧
      entries (New (-7) true) = [] ∧ Len (New (-7) true) = 0 ∧
      overBudget (addEntry (New (-7) true) "k1" (S "v1")) = true) :=
  ⟨by decide, nonNeg_S _, by decide,
    C18_negative_budget_accepted (-7) true (by decide) "k1" (S "v1") (nonNeg_S _) (by decide)⟩

/-- C19 as stated fails at New(0), Add(a, huge), the Len of huge being
2^63 - 1: line 70 wraps usedBytes around to -2^63, below 0 and below the cost
2^63 of the one live entry. -/
theorem C19_counterexample :
    NonNeg huge ∧ Add 0 (New 0 false) "a" huge = some hugeUnbounded ∧
    Reach NonNeg 0 false hugeUnbounded ∧
    hugeUnbounded.usedBytes = -9223372036854775808 ∧
    liveBytes hugeUnbounded = 9223372036854775808 ∧
    ¬ (0 ≤ hugeUnbounded.usedBytes) ∧
    ¬ (liveBytes hugeUnbounded ≤ hugeUnbounded.usedBytes) :=
  ⟨nonNeg_huge, rfl, Reach.add 0 "a" huge Reach.init nonNeg_huge rfl,
    by decide, by decide, by decide, by decide⟩

/-- C19, amended: usedBytes never undercounts. On a cache reached with values
of non-negative size and without wrap-around, usedBytes is at least the total
cost of the live entries and at least 0; so when maxBytes > 0 and an Add of
such a value, without wrap-around, returns, the total cost of the live entries
is at most maxBytes. -/
theorem C19_never_undercounts {m : Int} {cb : Bool} {c : Cache}
    (hr : ReachNoWrap m cb c) :
    liveBytes c ≤ c.usedBytes ∧ 0 ≤ c.usedBytes ∧
    (∀ fuel k v c1, NonNeg v → fits64 (c.usedBytes + addedBytes c k v) →
      0 < c.maxBytes → Add fuel c k v = some c1 → liveBytes c1 ≤ c1.maxBytes) := by
  have hs := Sound_of_ReachNoWrap hr
  refine ⟨hs.live, le_trans (liveBytes_nonneg hs.vals) hs.live, ?_⟩
  intro fuel k v c1 hv hfit hm hadd
  have hs1 := Sound_of_ReachNoWrap (ReachNoWrap.add fuel k v hr hv hfit hadd)
  have hmax : c1.maxBytes = c.maxBytes := by
    rw [evictLoop_maxBytes fuel hadd, addEntry_maxBytes]
  have hwithin := le_of_not_overBudget (evictLoop_within fuel hadd) (by rw [hmax]; exact hm)
  exact le_trans hs1.live hwithin

/-- C19, amended, at scenario 2, where usedBytes (8) is above the live total (4). -/
theorem C19_never_undercounts_witness :
    ReachNoWrap 10 false afterK2 ∧ liveBytes afterK2 = 4 ∧ afterK2.usedBytes = 8 ∧
    (liveBytes afterK2 ≤ afterK2.usedBytes ∧ 0 ≤ afterK2.usedBytes ∧
      (∀ fuel k v c1, NonNeg v → fits64 (afterK2.usedBytes + addedBytes afterK2 k v) →
        0 < afterK2.maxBytes → Add fuel afterK2 k v = some c1 →
        liveBytes c1 ≤ c1.maxBytes)) :=
  ⟨reachNoWrap_afterK2, by decide, by decide, C19_never_undercounts reachNoWrap_afterK2⟩

/-- C20: Add evicts only from the back and only while over budget. On a
reachable cache, the recency list after Add(k, v) returns is a prefix of the
entry of k with value v followed by the earlier entries other than k in their order;
and when maxBytes is 0 or usedBytes right after the insertion or update is at
most maxBytes, Add returns with exactly that list. -/
theorem C20_add_evicts_from_back {P : Value → Prop} {m : Int} {cb : Bool} {c : Cache}
    (hr : Reach P m cb c) (k : String) (v : Value) :
    (∀ fuel c1, Add fuel c k v = some c1 →
      entries c1 <+: ⟨k, v⟩ :: (entries c).filter (fun e => e.key != k)) ∧
    ((c.maxBytes = 0 ∨ (addEntry c k v).usedBytes ≤ c.maxBytes) →
      ∀ fuel, ∃ c1, Add fuel c k v = some c1 ∧
        entries c1 = ⟨k, v⟩ :: (entries c).filter (fun e => e.key != k)) := by
  have hinv := Inv_of_Reach hr
  constructor
  · intro fuel c1 hadd
    rw [← entries_addEntry hinv]
    exact entries_evictLoop fuel (Inv_addEntry hinv k v) hadd
  · intro hno fuel
    exact ⟨addEntry c k v, Add_of_not_overBudget (not_overBudget_of k v hno) fuel,
      entries_addEntry hinv k v⟩

/-- C20 at scenario 2: Add(k2, v2) leaves k2 alone, a prefix of k2, key1. -/
theorem C20_add_evicts_from_back_witness :
    Add 1 afterKey1 "k2" (S "v2") = some afterK2 ∧
    entries afterK2 = [⟨"k2", S "v2"⟩] ∧
    ⟨"k2", S "v2"⟩ :: (entries afterKey1).filter (fun e => e.key != "k2") =
      [⟨"k2", S "v2"⟩, ⟨"key1", S "1234"⟩] ∧
    ((∀ fuel c1, Add fuel afterKey1 "k2" (S "v2") = some c1 →
      entries c1 <+: ⟨"k2", S "v2"⟩ :: (entries afterKey1).filter (fun e => e.key != "k2")) ∧
    ((afterKey1.maxBytes = 0 ∨
        (addEntry afterKey1 "k2" (S "v2")).usedBytes ≤ afterKey1.maxBytes) →
      ∀ fuel, ∃ c1, Add fuel afterKey1 "k2" (S "v2") = some c1 ∧
        entries c1 = ⟨"k2", S "v2"⟩ :: (entries afterKey1).filter (fun e => e.key != "k2"))) :=
  ⟨rfl, by decide, by decide, C20_add_evicts_from_back reach_afterKey1 "k2" (S "v2")⟩

end lru
